import Mathlib

/-!
# Verification of the anchor generator and the synthetic shapes sampler

Shallow embedding of `examples/efficientdet/anchors.py` and
`examples/mask_rcnn/shapes_loader.py` (exact rational arithmetic in place of
float32; the float square root and the float power of two are abstracted as an
explicit `FloatKernel` parameter, since their exact values are irrational in
general and every claim is either independent of them or holds for an arbitrary
kernel with the stated sign properties).
-/

namespace Anchors

/-- The two irrational float operations used by `compute_box_coordinates`
(`np.sqrt` and `2 ** x`), abstracted as a parameter of the embedding. -/
structure FloatKernel where
  sqrt : ℚ → ℚ
  pow2 : ℚ → ℚ

/-- A kernel whose two operations are constantly one; it satisfies the sign
assumptions of the theorems and is used to instantiate witnesses on inputs
where the code only ever applies the operations to `1` or `0`
(where the true float values are also `1`). -/
def fkOne : FloatKernel := ⟨fun _ => 1, fun _ => 1⟩

/-- Errors the Python code can raise, plus the `InvalidConfiguration` class the
spec's error taxonomy demands.  `unpackMismatch` models the `ValueError` raised
by tuple unpacking of a sequence whose length does not match, `concatEmpty`
models the `ValueError` raised by `np.concatenate` on an empty list of arrays.
`invalidConfiguration` is never produced by the embedded code; it exists so
that the spec's taxonomy can be stated and compared. -/
inductive PyErr where
  | unpackMismatch : PyErr
  | concatEmpty : PyErr
  | invalidConfiguration : PyErr
deriving DecidableEq, Repr

/-- Python tuple unpacking `a, b = xs`: succeeds exactly on length-2 sequences. -/
def unpack2 {α : Type} (xs : List α) : Except PyErr (α × α) :=
  match xs with
  | [a, b] => .ok (a, b)
  | _ => .error .unpackMismatch

/-- Embedding of `np.arange(start, stop, step)` for a positive step:
the values `start + k * step` for `0 ≤ k < ⌈(stop - start) / step⌉`. -/
def np_arange (start stop step : ℚ) : List ℚ :=
  (List.range (Int.toNat ⌈(stop - start) / step⌉)).map (fun k : ℕ => start + (k : ℚ) * step)

/-- Embedding of `np.repeat(x, n)` for a scalar `x`. -/
def np_repeat_scalar (x : ℚ) (n : ℕ) : List ℚ :=
  List.replicate n x

/-- Embedding of `np.repeat(xs, n)` for a 1-d array `xs`: each element repeated `n` times. -/
def np_repeat_each (xs : List ℚ) (n : ℕ) : List ℚ :=
  xs.flatMap (fun x => List.replicate n x)

/-- Embedding of `np.tile(xs, n)`: the whole array repeated `n` times. -/
def np_tile (xs : List ℚ) (n : ℕ) : List ℚ :=
  (List.range n).flatMap (fun _ => xs)

/-- Embedding of `np.meshgrid(x, y)`: a pair of arrays of shape `(len(y), len(x))`;
the first repeats `x` along the rows, the second repeats `y` along the
columns. -/
def np_meshgrid (x y : List ℚ) : List (List ℚ) × List (List ℚ) :=
  (y.map (fun _ => x), y.map (fun yi => x.map (fun _ => yi)))

/-- Transpose of a rectangular matrix held as a list of rows (`m.T`):
column `j` of the result collects entry `j` of every row. -/
def npT (m : List (List ℚ)) : List (List ℚ) :=
  (List.range (m.headD []).length).map (fun j => m.map (fun row => row.getD j 0))

/-- Embedding of `np.concatenate(arrays, axis=0)`; raises on an empty list of arrays. -/
def np_concat_rows (arrays : List (List (List ℚ))) : Except PyErr (List (List ℚ)) :=
  match arrays with
  | [] => .error .concatEmpty
  | _ => .ok arrays.flatten

/-- Embedding of `np.concatenate(arrays, axis=1)` for 3-d arrays of shape `(G, mᵢ, 4)`;
raises on an empty list of arrays; entry `g` of the result concatenates the
middle axis of every input at index `g`. -/
def np_concat_axis1 (arrays : List (List (List (List ℚ)))) :
    Except PyErr (List (List (List ℚ))) :=
  match arrays with
  | [] => .error .concatEmpty
  | a :: _ => .ok ((List.range a.length).map
      (fun g => (arrays.map (fun arr => arr.getD g [])).flatten))

/-- Monadic map in the `Except` monad: the embedding of a Python `for` loop
that appends one computed element per iteration and propagates the first
raised error. -/
def mapExcept {α β : Type} (f : α → Except PyErr β) : List α → Except PyErr (List β)
  | [] => .ok []
  | a :: as => do
    let b ← f a
    let bs ← mapExcept f as
    return b :: bs

/-- Python-style `zip` of five equal-role lists, truncating at the shortest
(Python `zip`). -/
def zip5 {α β γ δ ε : Type} :
    List α → List β → List γ → List δ → List ε → List (α × β × γ × δ × ε)
  | a :: as, b :: bs, c :: cs, d :: ds, e :: es => (a, b, c, d, e) :: zip5 as bs cs ds es
  | _, _, _, _, _ => []

/-- Embedding of `build_octaves` from `anchors.py`:
`np.repeat(range(num_scales), len(aspect_ratios)) / num_scales`. -/
def build_octaves (num_scales : ℕ) (aspect_ratios : List ℚ) : List ℚ :=
  (np_repeat_each ((List.range num_scales).map (fun s : ℕ => (s : ℚ))) aspect_ratios.length).map
    (fun o => o / (num_scales : ℚ))

/-- Embedding of `build_aspect` from `anchors.py`: `np.tile(aspect_ratios, num_scales)`. -/
def build_aspect (aspect_ratios : List ℚ) (num_scales : ℕ) : List ℚ :=
  np_tile aspect_ratios num_scales

/-- Embedding of `build_scales` from `anchors.py`: `np.repeat(scale, num_scale_aspect)`. -/
def build_scales (scale : ℚ) (num_scale_aspect : ℕ) : List ℚ :=
  np_repeat_scalar scale num_scale_aspect

/-- Embedding of `build_strides` from `anchors.py`.  A branch is represented by its shape
tuple; the code reads `branches[branch_arg].shape[1:3]` and unpacks it into
the two feature dimensions. -/
def build_strides (branch_arg : ℕ) (image_shape : List ℚ) (branches : List (List ℕ))
    (num_scale_aspect : ℕ) : Except PyErr (List ℚ × List ℚ) := do
  let (base_feature_H, base_feature_W) ← unpack2 image_shape
  let (feature_H, feature_W) ← unpack2 (((branches.getD branch_arg []).drop 1).take 2)
  let features_H := np_repeat_scalar (feature_H : ℚ) num_scale_aspect
  let features_W := np_repeat_scalar (feature_W : ℚ) num_scale_aspect
  let H_inverse := features_H.map (fun v => v⁻¹)
  let W_inverse := features_W.map (fun v => v⁻¹)
  let strides_y := H_inverse.map (fun v => base_feature_H * v)
  let strides_x := W_inverse.map (fun v => base_feature_W * v)
  return (strides_y, strides_x)

/-- Embedding of `compute_box_coordinates` from `anchors.py`.  Note the unpacking
`W, H = image_shape`: the local name `W` is bound to the first component and
`H` to the second. -/
def compute_box_coordinates (fk : FloatKernel) (image_shape : List ℚ)
    (stride_y stride_x octave_scale aspect scale : ℚ) :
    Except PyErr (List (List ℚ)) := do
  let (W, H) ← unpack2 image_shape
  let base_anchor_W := scale * stride_x * fk.pow2 octave_scale
  let base_anchor_H := scale * stride_y * fk.pow2 octave_scale
  let aspect_W := fk.sqrt aspect
  let aspect_H := 1 / fk.sqrt aspect
  let anchor_W := base_anchor_W * aspect_W / 2 / H
  let anchor_H := base_anchor_H * aspect_H / 2 / W
  let x := np_arange (stride_x / 2) H stride_x
  let y := np_arange (stride_y / 2) W stride_y
  let center_x := (np_meshgrid x y).1.flatten.map (fun v => v / H)
  let center_y := (np_meshgrid x y).2.flatten.map (fun v => v / W)
  return [center_x.map (fun v => v - anchor_W),
          center_y.map (fun v => v - anchor_H),
          center_x.map (fun v => v + anchor_W),
          center_y.map (fun v => v + anchor_H)]

/-- Embedding of `build_branch_boxes` from `anchors.py`: one `(G, K, 4)` array per branch,
obtained by transposing each per-configuration `(4, G)` array, inserting a
middle axis, and concatenating along it. -/
def build_branch_boxes (fk : FloatKernel) (stride_y stride_x octave aspect scales : List ℚ)
    (image_shape : List ℚ) : Except PyErr (List (List (List ℚ))) := do
  let configs := zip5 stride_y stride_x octave aspect scales
  let branch_boxes ← mapExcept (fun c => do
    let boxes ← compute_box_coordinates fk image_shape c.1 c.2.1 c.2.2.1 c.2.2.2.1 c.2.2.2.2
    return (npT boxes).map (fun row => [row])) configs
  np_concat_axis1 branch_boxes

/-- Embedding of `build_anchors` from `anchors.py`, up to and including the row-wise
concatenation of line 30 (the corner-form array, before the final conversion
to center form). -/
def build_anchors_corner (fk : FloatKernel) (image_shape : List ℚ)
    (branches : List (List ℕ)) (num_scales : ℕ) (aspect_ratios : List ℚ) (scale : ℚ) :
    Except PyErr (List (List ℚ)) := do
  let anchor_boxes ← mapExcept (fun branch_arg => do
    let (stride_y, stride_x) ← build_strides branch_arg image_shape branches
      (num_scales * aspect_ratios.length)
    let octave := build_octaves num_scales aspect_ratios
    let aspect := build_aspect aspect_ratios num_scales
    let scales := build_scales scale (num_scales * aspect_ratios.length)
    let branch_boxes ← build_branch_boxes fk stride_y stride_x octave aspect scales image_shape
    return branch_boxes.flatten) (List.range branches.length)
  np_concat_rows anchor_boxes

/-- Modelled from the spec: `paz.backend.boxes.to_center_form` converts a
corner-form box `(x_min, y_min, x_max, y_max)` to the center form
`(center_x, center_y, W, H)` with `center = (min + max) / 2` and
`W, H = max - min` (spec section 3 and glossary). -/
def to_center_form (boxes : List (List ℚ)) : List (List ℚ) :=
  boxes.map (fun b =>
    [(b.getD 0 0 + b.getD 2 0) / 2, (b.getD 1 0 + b.getD 3 0) / 2,
     b.getD 2 0 - b.getD 0 0, b.getD 3 0 - b.getD 1 0])

/-- Modelled from the spec: `paz.backend.boxes.to_corner_form`, the inverse
conversion `(center_x, center_y, W, H) ↦ (center - extent / 2, center + extent / 2)`
(spec section 8, round-trip property, and glossary). -/
def to_corner_form (boxes : List (List ℚ)) : List (List ℚ) :=
  boxes.map (fun b =>
    [b.getD 0 0 - b.getD 2 0 / 2, b.getD 1 0 - b.getD 3 0 / 2,
     b.getD 0 0 + b.getD 2 0 / 2, b.getD 1 0 + b.getD 3 0 / 2])

/-- Embedding of `build_anchors` from `anchors.py`: the corner-form array converted to
center form (line 31). -/
def build_anchors (fk : FloatKernel) (image_shape : List ℚ)
    (branches : List (List ℕ)) (num_scales : ℕ) (aspect_ratios : List ℚ) (scale : ℚ) :
    Except PyErr (List (List ℚ)) := do
  let anchor_boxes ← build_anchors_corner fk image_shape branches num_scales aspect_ratios scale
  return to_center_form anchor_boxes

/-- The per-level list of `(octave, aspect)` configurations in the order the
spec describes: the scale index is the outer loop (each value repeated once
per aspect ratio) and the aspect ratio the inner one. -/
def scale_aspect_grid (num_scales : ℕ) (aspect_ratios : List ℚ) : List (ℚ × ℚ) :=
  (List.range num_scales).flatMap
    (fun s => aspect_ratios.map (fun a => ((s : ℚ) / (num_scales : ℚ), a)))

/-- One corner-form anchor row, as `compute_box_coordinates` produces it for a
raw grid point `(cx, cy)` (values of the two `np.arange` calls) and one
`(octave, aspect)` configuration.  `h` and `w` are the two components of
`image_shape` in the order the code binds them in `build_strides`. -/
def corner_box (fk : FloatKernel) (h w sy sx o a sc cx cy : ℚ) : List ℚ :=
  [cx / w - sc * sx * fk.pow2 o * fk.sqrt a / 2 / w,
   cy / h - sc * sy * fk.pow2 o * (1 / fk.sqrt a) / 2 / h,
   cx / w + sc * sx * fk.pow2 o * fk.sqrt a / 2 / w,
   cy / h + sc * sy * fk.pow2 o * (1 / fk.sqrt a) / 2 / h]

/-- The corner-form anchor rows of one pyramid level in the nested-loop order
the spec states: grid point in row-major meshgrid order (`y` outer, `x`
inner), box-shape configuration innermost. -/
def branch_rows (fk : FloatKernel) (h w : ℚ) (b : List ℕ)
    (num_scales : ℕ) (aspect_ratios : List ℚ) (scale : ℚ) : List (List ℚ) :=
  let sy := h * ((b.getD 1 0 : ℚ))⁻¹
  let sx := w * ((b.getD 2 0 : ℚ))⁻¹
  (np_arange (sy / 2) h sy).flatMap (fun cy =>
    (np_arange (sx / 2) w sx).flatMap (fun cx =>
      (scale_aspect_grid num_scales aspect_ratios).map
        (fun oa => corner_box fk h w sy sx oa.1 oa.2 scale cx cy)))

/-- The explicit nested-loop anchor layout stated by the spec (section 4.1,
step 8): pyramid level outermost, grid point in row-major meshgrid order in
the middle, box-shape configuration innermost. -/
def anchors_spec_corner (fk : FloatKernel) (h w : ℚ) (branches : List (List ℕ))
    (num_scales : ℕ) (aspect_ratios : List ℚ) (scale : ℚ) : List (List ℚ) :=
  branches.flatMap (fun b => branch_rows fk h w b num_scales aspect_ratios scale)

/-! ## Structural lemmas about the anchor pipeline -/

theorem mapExcept_ok {α β : Type} {f : α → Except PyErr β} {g : α → β} :
    ∀ {l : List α}, (∀ a ∈ l, f a = .ok (g a)) → mapExcept f l = .ok (l.map g)
  | [], _ => rfl
  | a :: as, h => by
    have ha : f a = .ok (g a) := h a (List.mem_cons_self a as)
    have hrest := mapExcept_ok (f := f) (g := g) (l := as)
      (fun x hx => h x (List.mem_cons_of_mem a hx))
    simp only [mapExcept, ha, hrest, List.map_cons]
    rfl

theorem mapExcept_error_head {α β : Type} {f : α → Except PyErr β} {a : α} (as : List α)
    {e : PyErr} (h : f a = .error e) : mapExcept f (a :: as) = .error e := by
  simp only [mapExcept, h]
  rfl

theorem zip5_replicate {α β γ δ ε : Type} (a : α) (b : β) (e : ε) :
    ∀ (n : ℕ) (xs : List γ) (ys : List δ), xs.length = n → ys.length = n →
      zip5 (List.replicate n a) (List.replicate n b) xs ys (List.replicate n e) =
        (xs.zip ys).map (fun p => (a, b, p.1, p.2, e)) := by
  intro n
  induction n with
  | zero =>
    intro xs ys hx hy
    rw [List.length_eq_zero] at hx hy
    subst hx; subst hy
    rfl
  | succ n ih =>
    intro xs ys hx hy
    cases xs with
    | nil => simp at hx
    | cons x xs =>
      cases ys with
      | nil => simp at hy
      | cons y ys =>
        simp only [List.replicate_succ, zip5, List.zip_cons_cons, List.map_cons]
        rw [ih xs ys (by simpa using hx) (by simpa using hy)]

theorem np_repeat_each_length (xs : List ℚ) (n : ℕ) :
    (np_repeat_each xs n).length = xs.length * n := by
  induction xs with
  | nil => simp [np_repeat_each]
  | cons x xs ih =>
    simp only [np_repeat_each, List.flatMap_cons, List.length_append,
      List.length_replicate, List.length_cons] at ih ⊢
    rw [ih]
    ring

theorem build_octaves_length (ns : ℕ) (ars : List ℚ) :
    (build_octaves ns ars).length = ns * ars.length := by
  unfold build_octaves
  rw [List.length_map, np_repeat_each_length, List.length_map, List.length_range]

theorem np_tile_length (xs : List ℚ) (ns : ℕ) :
    (np_tile xs ns).length = ns * xs.length := by
  induction ns with
  | zero => simp [np_tile]
  | succ k ih =>
    simp only [np_tile, List.range_succ, List.flatMap_append, List.length_append,
      List.flatMap_cons, List.flatMap_nil, List.append_nil] at ih ⊢
    rw [ih]
    ring

theorem build_aspect_length (ars : List ℚ) (ns : ℕ) :
    (build_aspect ars ns).length = ns * ars.length := np_tile_length ars ns

theorem zip_flatMap_blocks {α β γ : Type} (f : α → List β) (g : α → List γ)
    (hlen : ∀ x, (f x).length = (g x).length) :
    ∀ l : List α, (l.flatMap f).zip (l.flatMap g) = l.flatMap (fun x => (f x).zip (g x)) := by
  intro l
  induction l with
  | nil => rfl
  | cons x xs ih =>
    simp only [List.flatMap_cons]
    rw [List.zip_append (hlen x), ih]

theorem replicate_zip {α β : Type} (q : α) :
    ∀ (ls : List β), (List.replicate ls.length q).zip ls = ls.map (fun a => (q, a))
  | [] => rfl
  | a :: as => by
    simp only [List.length_cons, List.replicate_succ, List.zip_cons_cons, List.map_cons]
    rw [replicate_zip q as]

theorem octave_zip_aspect_aux (ns : ℕ) (ars : List ℚ) :
    ∀ l : List ℚ,
      ((l.flatMap (fun x => List.replicate ars.length x)).map
          (fun o => o / (ns : ℚ))).zip (l.flatMap (fun _ => ars)) =
        l.flatMap (fun q => ars.map (fun a => (q / (ns : ℚ), a)))
  | [] => rfl
  | q :: l => by
    simp only [List.flatMap_cons, List.map_append, List.map_replicate]
    rw [List.zip_append (by simp), octave_zip_aspect_aux ns ars l]
    congr 1
    have := replicate_zip (q / (ns : ℚ)) ars
    simpa using this

/-- The zipped `(octave, aspect)` configuration lists equal the nested-loop
grid the spec describes: scale index outer, aspect ratio inner. -/
theorem octave_zip_aspect (ns : ℕ) (ars : List ℚ) :
    (build_octaves ns ars).zip (build_aspect ars ns) = scale_aspect_grid ns ars := by
  unfold build_octaves build_aspect np_repeat_each np_tile scale_aspect_grid
  have aux := octave_zip_aspect_aux ns ars ((List.range ns).map (fun s : ℕ => (s : ℚ)))
  simp only [List.flatMap_map] at aux ⊢
  exact aux

theorem npT_four (u v : List ℚ) (h : v.length = u.length) (f₁ f₂ f₃ f₄ : ℚ → ℚ) :
    npT [u.map f₁, v.map f₂, u.map f₃, v.map f₄] =
      List.zipWith (fun cx cy => [f₁ cx, f₂ cy, f₃ cx, f₄ cy]) u v := by
  apply List.ext_getElem
  · simp [npT, h]
  · intro i h1 h2
    have hiu : i < u.length := by simpa [npT] using h1
    have hiv : i < v.length := by omega
    simp only [npT, List.headD_cons, List.length_map, List.getElem_map, List.getElem_range,
      List.getElem_zipWith, List.map_cons, List.map_nil]
    rw [List.getD_eq_getElem _ _ (by simpa using hiu), List.getD_eq_getElem _ _ (by simpa using hiv),
      List.getD_eq_getElem _ _ (by simpa using hiu), List.getD_eq_getElem _ _ (by simpa using hiv)]
    simp

theorem meshgrid_fst_length (x y : List ℚ) :
    (np_meshgrid x y).1.flatten.length = y.length * x.length := by
  induction y with
  | nil => simp [np_meshgrid]
  | cons yi ys ih =>
    simp only [np_meshgrid, List.map_cons, List.flatten_cons, List.length_append,
      List.length_cons] at ih ⊢
    rw [ih]
    ring

theorem meshgrid_snd_length (x y : List ℚ) :
    (np_meshgrid x y).2.flatten.length = y.length * x.length := by
  induction y with
  | nil => simp [np_meshgrid]
  | cons yi ys ih =>
    simp only [np_meshgrid, List.map_cons, List.flatten_cons, List.length_append,
      List.length_cons, List.length_map] at ih ⊢
    rw [ih]
    ring

theorem zipWith_const_right {γ : Type} (g : ℚ → ℚ → γ) (yi : ℚ) :
    ∀ x : List ℚ, List.zipWith g x (x.map (fun _ => yi)) = x.map (fun xi => g xi yi)
  | [] => rfl
  | xi :: xs => by
    simp only [List.map_cons, List.zipWith_cons_cons]
    rw [zipWith_const_right g yi xs]

/-- Zipping the two flattened meshgrid components realizes the row-major
grid traversal: `y` outer, `x` inner. -/
theorem zipWith_meshgrid {γ : Type} (g : ℚ → ℚ → γ) (x y : List ℚ) :
    List.zipWith g (np_meshgrid x y).1.flatten (np_meshgrid x y).2.flatten =
      y.flatMap (fun yi => x.map (fun xi => g xi yi)) := by
  induction y with
  | nil => rfl
  | cons yi ys ih =>
    simp only [np_meshgrid, List.map_cons, List.flatten_cons, List.flatMap_cons] at ih ⊢
    rw [List.zipWith_append _ _ _ _ _ (by simp), zipWith_const_right g yi x, ih]

/-- Applying `np.concatenate(..., axis=1)` to the per-configuration `(G, 1, 4)` arrays
interleaves them into a `(G, K, 4)` array: entry `g` lists, configuration by
configuration, the box of configuration `c` at grid point `g`. -/
theorem flatten_map_singleton {σ γ : Type} (g : σ → γ) :
    ∀ l : List σ, (l.map (fun c => [g c])).flatten = l.map g
  | [] => rfl
  | c :: cs => by
    simp only [List.map_cons, List.flatten_cons, List.singleton_append]
    rw [flatten_map_singleton g cs]

theorem np_concat_axis1_zipWith {σ : Type} (c0 : σ) (cs : List σ)
    (u v : List ℚ) (h : v.length = u.length) (bf : σ → ℚ → ℚ → List ℚ) :
    np_concat_axis1 ((c0 :: cs).map (fun c => (List.zipWith (bf c) u v).map (fun r => [r]))) =
      .ok (List.zipWith (fun cx cy => (c0 :: cs).map (fun c => bf c cx cy)) u v) := by
  simp only [List.map_cons, np_concat_axis1]
  congr 1
  apply List.ext_getElem
  · simp [h]
  · intro i h1 h2
    have hiu : i < u.length := by simpa [h] using h1
    have hiv : i < v.length := by omega
    simp only [List.getElem_map, List.getElem_range, List.getElem_zipWith]
    have hgetD : ∀ c : σ,
        ((List.zipWith (bf c) u v).map (fun r => [r])).getD i [] =
          [bf c u[i] v[i]] := by
      intro c
      rw [List.getD_eq_getElem _ _
        (by simp only [List.length_map, List.length_zipWith, Nat.lt_min]; exact ⟨hiu, hiv⟩)]
      rw [List.getElem_map, List.getElem_zipWith]
    simp only [List.map_map, Function.comp_def, hgetD]
    rw [List.flatten_cons, List.singleton_append, flatten_map_singleton]

theorem exceptBind_ok {α β : Type} (a : α) (f : α → Except PyErr β) :
    ((Except.ok a : Except PyErr α) >>= f) = f a := rfl

theorem exceptBind_error {α β : Type} (e : PyErr) (f : α → Except PyErr β) :
    ((Except.error e : Except PyErr α) >>= f) = .error e := rfl

theorem build_strides_ok (h w : ℚ) (branches : List (List ℕ)) (i : ℕ) (K : ℕ)
    (hlen : 3 ≤ (branches.getD i []).length) :
    build_strides i [h, w] branches K =
      .ok (List.replicate K (h * ((branches.getD i [] |>.getD 1 0 : ℕ) : ℚ)⁻¹),
           List.replicate K (w * ((branches.getD i [] |>.getD 2 0 : ℕ) : ℚ)⁻¹)) := by
  obtain ⟨b0, b1, b2, rest, hb⟩ :
      ∃ b0 b1 b2 rest, branches.getD i [] = b0 :: b1 :: b2 :: rest := by
    rcases hb : branches.getD i [] with _ | ⟨b0, _ | ⟨b1, _ | ⟨b2, rest⟩⟩⟩ <;> simp_all
  rw [build_strides, hb]
  simp only [List.drop_succ_cons, List.drop_zero, List.take_succ_cons, List.take_zero]
  simp only [unpack2, np_repeat_scalar, List.map_replicate]
  rfl

theorem compute_box_coordinates_eq (fk : FloatKernel) (h w sy sx o a sc : ℚ) :
    compute_box_coordinates fk [h, w] sy sx o a sc = .ok
      [(((np_meshgrid (np_arange (sx / 2) w sx) (np_arange (sy / 2) h sy)).1.flatten).map
          (fun c => c / w)).map (fun c => c - sc * sx * fk.pow2 o * fk.sqrt a / 2 / w),
       (((np_meshgrid (np_arange (sx / 2) w sx) (np_arange (sy / 2) h sy)).2.flatten).map
          (fun c => c / h)).map (fun c => c - sc * sy * fk.pow2 o * (1 / fk.sqrt a) / 2 / h),
       (((np_meshgrid (np_arange (sx / 2) w sx) (np_arange (sy / 2) h sy)).1.flatten).map
          (fun c => c / w)).map (fun c => c + sc * sx * fk.pow2 o * fk.sqrt a / 2 / w),
       (((np_meshgrid (np_arange (sx / 2) w sx) (np_arange (sy / 2) h sy)).2.flatten).map
          (fun c => c / h)).map (fun c => c + sc * sy * fk.pow2 o * (1 / fk.sqrt a) / 2 / h)] :=
  rfl

theorem scale_aspect_grid_ne_nil (ns : ℕ) (ars : List ℚ) (hns : 1 ≤ ns) (hars : ars ≠ []) :
    scale_aspect_grid ns ars ≠ [] := by
  unfold scale_aspect_grid
  obtain ⟨n, rfl⟩ : ∃ n, ns = n + 1 := ⟨ns - 1, by omega⟩
  obtain ⟨a0, as, rfl⟩ := List.exists_cons_of_ne_nil hars
  simp [List.range_succ]

theorem build_branch_boxes_eq (fk : FloatKernel) (h w sy sx sc : ℚ) (ns : ℕ) (ars : List ℚ)
    (hns : 1 ≤ ns) (hars : ars ≠ []) :
    build_branch_boxes fk (List.replicate (ns * ars.length) sy)
        (List.replicate (ns * ars.length) sx) (build_octaves ns ars) (build_aspect ars ns)
        (List.replicate (ns * ars.length) sc) [h, w] =
      .ok (List.zipWith
        (fun mx my => (scale_aspect_grid ns ars).map
          (fun oa => corner_box fk h w sy sx oa.1 oa.2 sc mx my))
        (np_meshgrid (np_arange (sx / 2) w sx) (np_arange (sy / 2) h sy)).1.flatten
        (np_meshgrid (np_arange (sx / 2) w sx) (np_arange (sy / 2) h sy)).2.flatten) := by
  have hzip5 := zip5_replicate sy sx sc (ns * ars.length)
    (build_octaves ns ars) (build_aspect ars ns)
    (build_octaves_length ns ars) (build_aspect_length ars ns)
  unfold build_branch_boxes
  rw [hzip5, octave_zip_aspect]
  simp only []
  set u := (np_meshgrid (np_arange (sx / 2) w sx) (np_arange (sy / 2) h sy)).1.flatten with hu
  set v := (np_meshgrid (np_arange (sx / 2) w sx) (np_arange (sy / 2) h sy)).2.flatten with hv
  have hlen : (v.map (fun c => c / h)).length = (u.map (fun c => c / w)).length := by
    rw [List.length_map, List.length_map, hu, hv, meshgrid_fst_length, meshgrid_snd_length]
  have hmap : mapExcept (fun c => do
      let boxes ← compute_box_coordinates fk [h, w] c.1 c.2.1 c.2.2.1 c.2.2.2.1 c.2.2.2.2
      return (npT boxes).map (fun row => [row]))
      ((scale_aspect_grid ns ars).map (fun p => (sy, sx, p.1, p.2, sc))) =
      .ok (((scale_aspect_grid ns ars).map (fun p => (sy, sx, p.1, p.2, sc))).map
        (fun c => (List.zipWith
          (fun cx cy => [cx - sc * sx * fk.pow2 c.2.2.1 * fk.sqrt c.2.2.2.1 / 2 / w,
                         cy - sc * sy * fk.pow2 c.2.2.1 * (1 / fk.sqrt c.2.2.2.1) / 2 / h,
                         cx + sc * sx * fk.pow2 c.2.2.1 * fk.sqrt c.2.2.2.1 / 2 / w,
                         cy + sc * sy * fk.pow2 c.2.2.1 * (1 / fk.sqrt c.2.2.2.1) / 2 / h])
          (u.map (fun c => c / w)) (v.map (fun c => c / h))).map (fun r => [r]))) := by
    apply mapExcept_ok
    intro c hc
    simp only [List.mem_map] at hc
    obtain ⟨p, hp, rfl⟩ := hc
    rw [show (do
        let boxes ← compute_box_coordinates fk [h, w] (sy, sx, p.1, p.2, sc).1
          (sy, sx, p.1, p.2, sc).2.1 (sy, sx, p.1, p.2, sc).2.2.1
          (sy, sx, p.1, p.2, sc).2.2.2.1 (sy, sx, p.1, p.2, sc).2.2.2.2
        return (npT boxes).map (fun row => [row]) : Except PyErr _) =
      .ok ((npT [(u.map (fun c => c / w)).map
          (fun c => c - sc * sx * fk.pow2 p.1 * fk.sqrt p.2 / 2 / w),
        (v.map (fun c => c / h)).map
          (fun c => c - sc * sy * fk.pow2 p.1 * (1 / fk.sqrt p.2) / 2 / h),
        (u.map (fun c => c / w)).map
          (fun c => c + sc * sx * fk.pow2 p.1 * fk.sqrt p.2 / 2 / w),
        (v.map (fun c => c / h)).map
          (fun c => c + sc * sy * fk.pow2 p.1 * (1 / fk.sqrt p.2) / 2 / h)]).map
        (fun row => [row])) from rfl]
    rw [npT_four _ _ hlen]
  rw [hmap, exceptBind_ok, List.map_map]
  simp only [Function.comp_def]
  obtain ⟨g0, gs, hcons⟩ := List.exists_cons_of_ne_nil (scale_aspect_grid_ne_nil ns ars hns hars)
  rw [hcons,
    np_concat_axis1_zipWith g0 gs (u.map (fun c => c / w)) (v.map (fun c => c / h)) hlen,
    ← hcons]
  congr 1
  rw [List.zipWith_map]
  congr 1

theorem np_concat_rows_of_ne_nil {l : List (List (List ℚ))} (h : l ≠ []) :
    np_concat_rows l = .ok l.flatten := by
  cases l with
  | nil => exact absurd rfl h
  | cons a as => rfl

theorem range_map_getD {α β : Type} (G : α → β) (l : List α) (d : α) :
    (List.range l.length).map (fun i => G (l.getD i d)) = l.map G := by
  apply List.ext_getElem
  · simp
  · intro i h1 h2
    simp only [List.getElem_map, List.getElem_range]
    rw [List.getD_eq_getElem _ _ (by simpa using h1)]

theorem flatMap_flatten_comm {α β : Type} (f : α → List (List β)) :
    ∀ l : List α, (l.flatMap f).flatten = l.flatMap (fun a => (f a).flatten)
  | [] => rfl
  | a :: as => by
    simp only [List.flatMap_cons, List.flatten_append]
    rw [flatMap_flatten_comm f as]

/-- Structural characterization of the corner-form anchor array: under a valid
configuration, `build_anchors_corner` succeeds and its rows follow the
explicit nested-loop layout of `anchors_spec_corner` (pyramid level outermost,
then row-major grid point, then box-shape configuration). -/
theorem build_anchors_corner_eq (fk : FloatKernel) (h w : ℚ) (branches : List (List ℕ))
    (ns : ℕ) (ars : List ℚ) (sc : ℚ) (hbr : branches ≠ []) (hns : 1 ≤ ns) (hars : ars ≠ [])
    (hshape : ∀ b ∈ branches, 3 ≤ b.length) :
    build_anchors_corner fk [h, w] branches ns ars sc =
      .ok (anchors_spec_corner fk h w branches ns ars sc) := by
  unfold build_anchors_corner
  have hmap : mapExcept (fun branch_arg => do
        let (stride_y, stride_x) ← build_strides branch_arg [h, w] branches (ns * ars.length)
        let octave := build_octaves ns ars
        let aspect := build_aspect ars ns
        let scales := build_scales sc (ns * ars.length)
        let branch_boxes ← build_branch_boxes fk stride_y stride_x octave aspect scales [h, w]
        return branch_boxes.flatten) (List.range branches.length) =
      .ok ((List.range branches.length).map
        (fun i => branch_rows fk h w (branches.getD i []) ns ars sc)) := by
    apply mapExcept_ok
    intro i hi
    have hib : i < branches.length := List.mem_range.mp hi
    have hmem : branches.getD i [] ∈ branches := by
      rw [List.getD_eq_getElem _ _ hib]
      exact List.getElem_mem hib
    rw [build_strides_ok h w branches i (ns * ars.length) (hshape _ hmem), exceptBind_ok]
    simp only [build_scales, np_repeat_scalar]
    rw [build_branch_boxes_eq fk h w _ _ sc ns ars hns hars, exceptBind_ok]
    rw [zipWith_meshgrid]
    congr 1
    rw [flatMap_flatten_comm]
    unfold branch_rows
    simp only [List.flatMap_def]
  rw [hmap, exceptBind_ok, np_concat_rows_of_ne_nil]
  · congr 1
    rw [range_map_getD (fun b => branch_rows fk h w b ns ars sc) branches []]
    rw [← List.flatMap_def]
    rfl
  · intro hnil
    apply hbr
    have := congrArg List.length hnil
    simpa using this

/-- The call `np.arange(stride / 2, d, stride)` with `stride = d / f` has exactly `f`
entries: one grid center per feature cell. -/
theorem np_arange_stride_length (d : ℚ) (f : ℕ) (hd : 0 < d) (hf : 1 ≤ f) :
    (np_arange (d * (f : ℚ)⁻¹ / 2) d (d * (f : ℚ)⁻¹)).length = f := by
  unfold np_arange
  rw [List.length_map, List.length_range]
  have hf0 : (0 : ℚ) < (f : ℚ) := by exact_mod_cast (by omega : 0 < f)
  have hval : (d - d * (f : ℚ)⁻¹ / 2) / (d * (f : ℚ)⁻¹) = (f : ℚ) - 1 / 2 := by
    field_simp
    ring
  rw [hval]
  have hceil : ⌈(f : ℚ) - 1 / 2⌉ = (f : ℤ) := by
    rw [Int.ceil_eq_iff]
    constructor
    · push_cast
      linarith
    · push_cast
      linarith
  rw [hceil]
  exact Int.toNat_natCast f

theorem flatMap_length_const {α β : Type} (f : α → List β) (c : ℕ)
    (hc : ∀ a, (f a).length = c) : ∀ l : List α, (l.flatMap f).length = l.length * c
  | [] => by simp
  | a :: as => by
    rw [List.flatMap_cons, List.length_append, hc a, flatMap_length_const f c hc as,
      List.length_cons]
    ring

theorem scale_aspect_grid_length (ns : ℕ) (ars : List ℚ) :
    (scale_aspect_grid ns ars).length = ns * ars.length := by
  unfold scale_aspect_grid
  rw [flatMap_length_const _ ars.length (fun s => List.length_map _ _), List.length_range]

theorem branch_rows_length (fk : FloatKernel) (h w : ℚ) (b : List ℕ)
    (ns : ℕ) (ars : List ℚ) (sc : ℚ) (hh : 0 < h) (hw : 0 < w)
    (hb1 : 1 ≤ b.getD 1 0) (hb2 : 1 ≤ b.getD 2 0) :
    (branch_rows fk h w b ns ars sc).length =
      b.getD 1 0 * (b.getD 2 0 * (ns * ars.length)) := by
  unfold branch_rows
  rw [flatMap_length_const _ (b.getD 2 0 * (ns * ars.length))
    (fun cy => by
      rw [flatMap_length_const _ (ns * ars.length)
        (fun cx => by rw [List.length_map, scale_aspect_grid_length]),
        np_arange_stride_length w (b.getD 2 0) hw hb2])]
  rw [np_arange_stride_length h (b.getD 1 0) hh hb1]

/-- C1: for every valid configuration (2-component image shape, non-empty
branches exposing a feature shape at indices 1:3, `num_scales ≥ 1`, non-empty
aspect ratios), `build_anchors` succeeds and the number of anchor rows equals
the sum over branches of `feature_H * feature_W * num_scales * len(aspect_ratios)`. -/
theorem claim_C1 (fk : FloatKernel) (h w : ℚ) (branches : List (List ℕ)) (ns : ℕ)
    (ars : List ℚ) (sc : ℚ) (hbr : branches ≠ []) (hns : 1 ≤ ns) (hars : ars ≠ [])
    (hh : 0 < h) (hw : 0 < w)
    (hshape : ∀ b ∈ branches, 3 ≤ b.length ∧ 1 ≤ b.getD 1 0 ∧ 1 ≤ b.getD 2 0) :
    ∃ A, build_anchors fk [h, w] branches ns ars sc = .ok A ∧
      A.length =
        (branches.map (fun b => b.getD 1 0 * (b.getD 2 0 * (ns * ars.length)))).sum := by
  refine ⟨to_center_form (anchors_spec_corner fk h w branches ns ars sc), ?_, ?_⟩
  · unfold build_anchors
    rw [build_anchors_corner_eq fk h w branches ns ars sc hbr hns hars
      (fun b hb => (hshape b hb).1), exceptBind_ok]
    rfl
  · unfold to_center_form anchors_spec_corner
    rw [List.length_map, List.length_flatMap]
    congr 1
    apply List.map_congr_left
    intro b hb
    exact branch_rows_length fk h w b ns ars sc hh hw (hshape b hb).2.1 (hshape b hb).2.2

/-- C1 witness: the concrete scenario of the spec, image 128 x 128, one branch
with a 16 x 16 feature map, 3 scales, 3 aspect ratios: 2304 anchors. -/
theorem claim_C1_witness :
    ∃ A, build_anchors fkOne [128, 128] [[1, 16, 16, 64]] 3 [1, 2, 1 / 2] 4 = .ok A ∧
      A.length = 2304 := by
  obtain ⟨A, hA, hlen⟩ := claim_C1 fkOne 128 128 [[1, 16, 16, 64]] 3 [1, 2, 1 / 2] 4
    (by simp) (by norm_num) (by simp) (by norm_num) (by norm_num)
    (by
      intro b hb
      rw [List.mem_singleton] at hb
      subst hb
      refine ⟨by decide, by decide, by decide⟩)
  refine ⟨A, hA, ?_⟩
  rw [hlen]
  rfl

theorem build_octaves_eq (ns : ℕ) (ars : List ℚ) :
    build_octaves ns ars =
      (List.range ns).flatMap (fun s => List.replicate ars.length ((s : ℚ) / (ns : ℚ))) := by
  unfold build_octaves np_repeat_each
  rw [List.flatMap_map, List.map_flatMap]
  simp only [List.map_replicate]

/-- C4: `build_anchors` lays out its rows with the pyramid level outermost,
the grid position (row-major meshgrid order) in the middle and the
scale/aspect box-shape variant innermost; octave values cycle through
`0 .. num_scales - 1`, each repeated once per aspect ratio and divided by
`num_scales`; aspect ratios are tiled `num_scales` times, varying fastest. -/
theorem claim_C4 (fk : FloatKernel) (h w : ℚ) (branches : List (List ℕ)) (ns : ℕ)
    (ars : List ℚ) (sc : ℚ) (hbr : branches ≠ []) (hns : 1 ≤ ns) (hars : ars ≠ [])
    (hshape : ∀ b ∈ branches, 3 ≤ b.length) :
    build_anchors fk [h, w] branches ns ars sc =
      .ok (to_center_form (anchors_spec_corner fk h w branches ns ars sc)) ∧
    build_octaves ns ars =
      (List.range ns).flatMap (fun s => List.replicate ars.length ((s : ℚ) / (ns : ℚ))) ∧
    build_aspect ars ns = (List.range ns).flatMap (fun _ => ars) := by
  refine ⟨?_, build_octaves_eq ns ars, rfl⟩
  unfold build_anchors
  rw [build_anchors_corner_eq fk h w branches ns ars sc hbr hns hars hshape, exceptBind_ok]
  rfl

/-- C4 witness: the ordering contract instantiated at a concrete valid
configuration. -/
theorem claim_C4_witness :
    build_anchors fkOne [64, 64] [[1, 1, 1, 1]] 1 [1] 1 =
      .ok (to_center_form (anchors_spec_corner fkOne 64 64 [[1, 1, 1, 1]] 1 [1] 1)) ∧
    build_octaves 1 [1] =
      (List.range 1).flatMap (fun s => List.replicate ([1] : List ℚ).length ((s : ℚ) / (1 : ℚ))) ∧
    build_aspect [1] 1 = (List.range 1).flatMap (fun _ => ([1] : List ℚ)) :=
  claim_C4 fkOne 64 64 [[1, 1, 1, 1]] 1 [1] 1 (by simp) (le_refl 1) (by simp)
    (fun b hb => by rw [List.mem_singleton] at hb; subst hb; decide)

/-- Every row of the explicit layout comes from one branch, one raw grid
point of the two `np.arange` calls, and one `(octave, aspect)` configuration. -/
theorem anchors_spec_corner_row (fk : FloatKernel) (h w : ℚ) (branches : List (List ℕ))
    (ns : ℕ) (ars : List ℚ) (sc : ℚ) {row : List ℚ}
    (hrow : row ∈ anchors_spec_corner fk h w branches ns ars sc) :
    ∃ b ∈ branches,
      ∃ cy ∈ np_arange (h * ((b.getD 1 0 : ℕ) : ℚ)⁻¹ / 2) h (h * ((b.getD 1 0 : ℕ) : ℚ)⁻¹),
      ∃ cx ∈ np_arange (w * ((b.getD 2 0 : ℕ) : ℚ)⁻¹ / 2) w (w * ((b.getD 2 0 : ℕ) : ℚ)⁻¹),
      ∃ oa ∈ scale_aspect_grid ns ars,
        row = corner_box fk h w (h * ((b.getD 1 0 : ℕ) : ℚ)⁻¹) (w * ((b.getD 2 0 : ℕ) : ℚ)⁻¹)
          oa.1 oa.2 sc cx cy := by
  simp only [anchors_spec_corner, branch_rows, List.mem_flatMap, List.mem_map] at hrow
  obtain ⟨b, hb, cy, hcy, cx, hcx, oa, hoa, hr⟩ := hrow
  exact ⟨b, hb, cy, hcy, cx, hcx, oa, hoa, hr.symm⟩

theorem scale_aspect_grid_mem {ns : ℕ} {ars : List ℚ} {oa : ℚ × ℚ}
    (h : oa ∈ scale_aspect_grid ns ars) : oa.2 ∈ ars := by
  simp only [scale_aspect_grid, List.mem_flatMap, List.mem_map] at h
  obtain ⟨s, _, a, ha, rfl⟩ := h
  exact ha

/-- C8: the corner-form anchor array built by `build_anchors` round-trips
exactly through `to_center_form` and back through `to_corner_form`. -/
theorem claim_C8 (fk : FloatKernel) (h w : ℚ) (branches : List (List ℕ)) (ns : ℕ)
    (ars : List ℚ) (sc : ℚ) (hbr : branches ≠ []) (hns : 1 ≤ ns) (hars : ars ≠ [])
    (hshape : ∀ b ∈ branches, 3 ≤ b.length) :
    ∀ A, build_anchors_corner fk [h, w] branches ns ars sc = .ok A →
      to_corner_form (to_center_form A) = A := by
  intro A hA
  rw [build_anchors_corner_eq fk h w branches ns ars sc hbr hns hars hshape] at hA
  have hAeq : A = anchors_spec_corner fk h w branches ns ars sc := by
    cases hA
    rfl
  subst hAeq
  unfold to_corner_form to_center_form
  rw [List.map_map]
  have hid : ∀ row ∈ anchors_spec_corner fk h w branches ns ars sc,
      ((fun b : List ℚ =>
          [b.getD 0 0 - b.getD 2 0 / 2, b.getD 1 0 - b.getD 3 0 / 2,
           b.getD 0 0 + b.getD 2 0 / 2, b.getD 1 0 + b.getD 3 0 / 2]) ∘
        (fun b : List ℚ =>
          [(b.getD 0 0 + b.getD 2 0) / 2, (b.getD 1 0 + b.getD 3 0) / 2,
           b.getD 2 0 - b.getD 0 0, b.getD 3 0 - b.getD 1 0])) row = id row := by
    intro row hrow
    obtain ⟨b, _, cy, _, cx, _, oa, _, hr⟩ :=
      anchors_spec_corner_row fk h w branches ns ars sc hrow
    rw [hr]
    unfold corner_box
    simp only [Function.comp_apply, List.getD_cons_zero, List.getD_cons_succ, id_eq,
      List.cons.injEq, and_true]
    refine ⟨by ring, by ring, by ring, by ring⟩
  rw [List.map_congr_left hid, List.map_id]

/-- C8 witness: the round trip at a concrete valid configuration. -/
theorem claim_C8_witness :
    to_corner_form (to_center_form (anchors_spec_corner fkOne 32 32 [[1, 2, 2, 8]] 1 [1] 2)) =
      anchors_spec_corner fkOne 32 32 [[1, 2, 2, 8]] 1 [1] 2 :=
  claim_C8 fkOne 32 32 [[1, 2, 2, 8]] 1 [1] 2 (by simp) (le_refl 1) (by simp)
    (fun b hb => by rw [List.mem_singleton] at hb; subst hb; decide)
    (anchors_spec_corner fkOne 32 32 [[1, 2, 2, 8]] 1 [1] 2)
    (build_anchors_corner_eq fkOne 32 32 [[1, 2, 2, 8]] 1 [1] 2 (by simp) (le_refl 1) (by simp)
      (fun b hb => by rw [List.mem_singleton] at hb; subst hb; decide))

/-- C9: for a valid configuration with positive scale, aspect ratios and
dimensions (and a float kernel whose square root and power of two are
positive on positive inputs), every center-form anchor row has strictly
positive width and height. -/
theorem claim_C9 (fk : FloatKernel) (h w : ℚ) (branches : List (List ℕ)) (ns : ℕ)
    (ars : List ℚ) (sc : ℚ)
    (hsqrt : ∀ x : ℚ, 0 < x → 0 < fk.sqrt x) (hpow : ∀ x : ℚ, 0 < fk.pow2 x)
    (hbr : branches ≠ []) (hns : 1 ≤ ns) (hars : ars ≠ []) (harspos : ∀ a ∈ ars, 0 < a)
    (hh : 0 < h) (hw : 0 < w) (hsc : 0 < sc)
    (hshape : ∀ b ∈ branches, 3 ≤ b.length ∧ 1 ≤ b.getD 1 0 ∧ 1 ≤ b.getD 2 0) :
    ∀ A, build_anchors fk [h, w] branches ns ars sc = .ok A →
      ∀ row ∈ A, 0 < row.getD 2 0 ∧ 0 < row.getD 3 0 := by
  intro A hA row hrow
  unfold build_anchors at hA
  rw [build_anchors_corner_eq fk h w branches ns ars sc hbr hns hars
    (fun b hb => (hshape b hb).1), exceptBind_ok] at hA
  have hAeq : A = to_center_form (anchors_spec_corner fk h w branches ns ars sc) := by
    cases hA
    rfl
  subst hAeq
  unfold to_center_form at hrow
  rw [List.mem_map] at hrow
  obtain ⟨r, hr, hrq⟩ := hrow
  obtain ⟨b, hbmem, cy, _, cx, _, oa, hoa, hreq⟩ :=
    anchors_spec_corner_row fk h w branches ns ars sc hr
  subst hrq
  subst hreq
  have ha : 0 < oa.2 := harspos oa.2 (scale_aspect_grid_mem hoa)
  have hfH : (0 : ℚ) < ((b.getD 1 0 : ℕ) : ℚ) := by
    have h1 := (hshape b hbmem).2.1
    exact_mod_cast (by omega : 0 < b.getD 1 0)
  have hfW : (0 : ℚ) < ((b.getD 2 0 : ℕ) : ℚ) := by
    have h2 := (hshape b hbmem).2.2
    exact_mod_cast (by omega : 0 < b.getD 2 0)
  unfold corner_box
  simp only [List.getD_cons_zero, List.getD_cons_succ]
  constructor
  · have heq : cx / w + sc * (w * ((b.getD 2 0 : ℕ) : ℚ)⁻¹) * fk.pow2 oa.1 * fk.sqrt oa.2 / 2 / w
        - (cx / w - sc * (w * ((b.getD 2 0 : ℕ) : ℚ)⁻¹) * fk.pow2 oa.1 * fk.sqrt oa.2 / 2 / w)
        = sc * (w * ((b.getD 2 0 : ℕ) : ℚ)⁻¹) * fk.pow2 oa.1 * fk.sqrt oa.2 / w := by
      ring
    rw [heq]
    have hsx : 0 < w * ((b.getD 2 0 : ℕ) : ℚ)⁻¹ := by positivity
    have := hsqrt oa.2 ha
    have := hpow oa.1
    positivity
  · have heq : cy / h
        + sc * (h * ((b.getD 1 0 : ℕ) : ℚ)⁻¹) * fk.pow2 oa.1 * (1 / fk.sqrt oa.2) / 2 / h
        - (cy / h
        - sc * (h * ((b.getD 1 0 : ℕ) : ℚ)⁻¹) * fk.pow2 oa.1 * (1 / fk.sqrt oa.2) / 2 / h)
        = sc * (h * ((b.getD 1 0 : ℕ) : ℚ)⁻¹) * fk.pow2 oa.1 * (1 / fk.sqrt oa.2) / h := by
      ring
    rw [heq]
    have hsy : 0 < h * ((b.getD 1 0 : ℕ) : ℚ)⁻¹ := by positivity
    have := hsqrt oa.2 ha
    have := hpow oa.1
    positivity

theorem range_one : List.range 1 = [0] := rfl

/-- The call `np.arange(s, d, d)` holds the single value `s` when `0 < (d - s) / d ≤ 1`. -/
theorem np_arange_singleton (s d : ℚ) (h1 : 0 < d - s) (h2 : d - s ≤ d) (hd : 0 < d) :
    np_arange s d d = [s] := by
  unfold np_arange
  have hc : ⌈(d - s) / d⌉ = 1 := by
    rw [Int.ceil_eq_iff]
    constructor
    · push_cast
      simpa using div_pos h1 hd
    · push_cast
      rw [div_le_one hd]
      exact h2
  rw [hc]
  simp [range_one]

theorem anchors_spec_small :
    anchors_spec_corner fkOne 1 2 [[1, 1, 1, 1]] 1 [1] 1 = [[0, 0, 1, 1]] := by
  have ha1 : np_arange (1 / 2 : ℚ) 1 1 = [1 / 2] :=
    np_arange_singleton _ _ (by norm_num) (by norm_num) (by norm_num)
  have ha2 : np_arange (1 : ℚ) 2 2 = [1] :=
    np_arange_singleton _ _ (by norm_num) (by norm_num) (by norm_num)
  unfold anchors_spec_corner branch_rows scale_aspect_grid corner_box fkOne
  norm_num [range_one, ha1, ha2]

theorem anchors_spec_tiny :
    anchors_spec_corner fkOne 64 64 [[1, 1, 1, 1]] 1 [1] 1 = [[0, 0, 1, 1]] := by
  have ha1 : np_arange (32 : ℚ) 64 64 = [32] :=
    np_arange_singleton _ _ (by norm_num) (by norm_num) (by norm_num)
  unfold anchors_spec_corner branch_rows scale_aspect_grid corner_box fkOne
  norm_num [range_one, ha1]

/-- C9 witness: at a concrete valid configuration the single produced anchor
row has width 1 and height 1, both positive. -/
theorem claim_C9_witness :
    0 < (([(1 : ℚ) / 2, 1 / 2, 1, 1] : List ℚ).getD 2 0) ∧
      0 < (([(1 : ℚ) / 2, 1 / 2, 1, 1] : List ℚ).getD 3 0) :=
  claim_C9 fkOne 64 64 [[1, 1, 1, 1]] 1 [1] 1
    (fun _ _ => one_pos) (fun _ => one_pos)
    (by simp) (le_refl 1) (by simp)
    (fun a ha => by rw [List.mem_singleton] at ha; subst ha; norm_num)
    (by norm_num) (by norm_num) (by norm_num)
    (fun b hb => by
      rw [List.mem_singleton] at hb
      subst hb
      exact ⟨by decide, by decide, by decide⟩)
    (to_center_form (anchors_spec_corner fkOne 64 64 [[1, 1, 1, 1]] 1 [1] 1))
    (by
      unfold build_anchors
      rw [build_anchors_corner_eq fkOne 64 64 [[1, 1, 1, 1]] 1 [1] 1 (by simp) (le_refl 1)
        (by simp) (fun b hb => by rw [List.mem_singleton] at hb; subst hb; decide),
        exceptBind_ok]
      rfl)
    [1 / 2, 1 / 2, 1, 1]
    (by
      rw [anchors_spec_tiny]
      norm_num [to_center_form])

/-- C3 counterexample: with image_shape = (1, 2) (image_H = 1, image_W = 2),
one branch with a 1 x 1 feature map, one scale and aspect ratio 1, the code
produces an anchor of center-form width 1 (the half-width is normalized by the
image width, 2), while the claim's formula — half-width normalized by the
image height, 1 — predicts width 2. -/
theorem claim_C3_counterexample :
    (∃ A, build_anchors fkOne [1, 2] [[1, 1, 1, 1]] 1 [1] 1 = .ok A ∧
        (A.headD []).getD 2 0 = 1) ∧
      2 * (1 * (2 * ((1 : ℕ) : ℚ)⁻¹) * fkOne.pow2 0 * fkOne.sqrt 1 / 2 / 1) = 2 ∧
      (1 : ℚ) ≠ 2 := by
  refine ⟨⟨to_center_form (anchors_spec_corner fkOne 1 2 [[1, 1, 1, 1]] 1 [1] 1), ?_, ?_⟩,
    by norm_num [fkOne], by norm_num⟩
  · unfold build_anchors
    rw [build_anchors_corner_eq fkOne 1 2 [[1, 1, 1, 1]] 1 [1] 1 (by simp) (le_refl 1)
      (by simp) (fun b hb => by rw [List.mem_singleton] at hb; subst hb; decide),
      exceptBind_ok]
    rfl
  · rw [anchors_spec_small]
    norm_num [to_center_form]

/-- C3 (amended): with image_shape read as (image_H, image_W), every row of
the corner-form anchor array is `corner_box` at one branch, one grid point and
one configuration: the half-width is normalized by the image WIDTH, the
half-height by the image HEIGHT, the x-centers are
`arange(stride_x / 2, image_W, stride_x) / image_W` and the y-centers are
`arange(stride_y / 2, image_H, stride_y) / image_H` — same-axis
normalization; the apparent cross-axis swap exists only in the code's local
variable names. -/
theorem claim_C3_amended (fk : FloatKernel) (h w : ℚ) (branches : List (List ℕ)) (ns : ℕ)
    (ars : List ℚ) (sc : ℚ) (hbr : branches ≠ []) (hns : 1 ≤ ns) (hars : ars ≠ [])
    (hshape : ∀ b ∈ branches, 3 ≤ b.length) :
    ∀ A, build_anchors_corner fk [h, w] branches ns ars sc = .ok A →
      ∀ row ∈ A, ∃ b ∈ branches,
        ∃ cy ∈ np_arange (h * ((b.getD 1 0 : ℕ) : ℚ)⁻¹ / 2) h (h * ((b.getD 1 0 : ℕ) : ℚ)⁻¹),
        ∃ cx ∈ np_arange (w * ((b.getD 2 0 : ℕ) : ℚ)⁻¹ / 2) w (w * ((b.getD 2 0 : ℕ) : ℚ)⁻¹),
        ∃ oa ∈ scale_aspect_grid ns ars,
          row = corner_box fk h w (h * ((b.getD 1 0 : ℕ) : ℚ)⁻¹)
            (w * ((b.getD 2 0 : ℕ) : ℚ)⁻¹) oa.1 oa.2 sc cx cy := by
  intro A hA row hrow
  rw [build_anchors_corner_eq fk h w branches ns ars sc hbr hns hars hshape] at hA
  have hAeq : A = anchors_spec_corner fk h w branches ns ars sc := by
    cases hA
    rfl
  subst hAeq
  exact anchors_spec_corner_row fk h w branches ns ars sc hrow

/-- C3 amended witness: the characterization instantiated at the
counterexample's configuration and its single row. -/
theorem claim_C3_amended_witness :
    ∃ b ∈ [[1, 1, 1, 1]],
      ∃ cy ∈ np_arange ((1 : ℚ) * ((List.getD b 1 0 : ℕ) : ℚ)⁻¹ / 2) 1
        ((1 : ℚ) * ((List.getD b 1 0 : ℕ) : ℚ)⁻¹),
      ∃ cx ∈ np_arange ((2 : ℚ) * ((List.getD b 2 0 : ℕ) : ℚ)⁻¹ / 2) 2
        ((2 : ℚ) * ((List.getD b 2 0 : ℕ) : ℚ)⁻¹),
      ∃ oa ∈ scale_aspect_grid 1 [1],
        ([0, 0, 1, 1] : List ℚ) = corner_box fkOne 1 2
          ((1 : ℚ) * ((List.getD b 1 0 : ℕ) : ℚ)⁻¹)
          ((2 : ℚ) * ((List.getD b 2 0 : ℕ) : ℚ)⁻¹) oa.1 oa.2 1 cx cy :=
  claim_C3_amended fkOne 1 2 [[1, 1, 1, 1]] 1 [1] 1 (by simp) (le_refl 1) (by simp)
    (fun b hb => by rw [List.mem_singleton] at hb; subst hb; decide)
    (anchors_spec_corner fkOne 1 2 [[1, 1, 1, 1]] 1 [1] 1)
    (build_anchors_corner_eq fkOne 1 2 [[1, 1, 1, 1]] 1 [1] 1 (by simp) (le_refl 1) (by simp)
      (fun b hb => by rw [List.mem_singleton] at hb; subst hb; decide))
    [0, 0, 1, 1]
    (by rw [anchors_spec_small]; exact List.mem_singleton.mpr rfl)

theorem unpack2_cases {α : Type} (xs : List α) :
    (∃ x y, xs = [x, y]) ∨ unpack2 xs = .error .unpackMismatch := by
  rcases xs with _ | ⟨x, _ | ⟨y, _ | ⟨z, zs⟩⟩⟩ <;> simp [unpack2]

theorem unpack2_error {α : Type} (xs : List α) (hlen : xs.length ≠ 2) :
    unpack2 xs = .error .unpackMismatch := by
  rcases unpack2_cases xs with ⟨x, y, rfl⟩ | he
  · simp at hlen
  · exact he

/-- C6 counterexample: with empty branches the code fails with the generic
`ValueError` of `np.concatenate` on an empty list — raised at the final
concatenation after the whole loop — not with a dedicated
`InvalidConfiguration` error detected up front. -/
theorem claim_C6_counterexample :
    build_anchors fkOne [128, 128] [] 3 [1] 4 = .error PyErr.concatEmpty ∧
      PyErr.concatEmpty ≠ PyErr.invalidConfiguration := by
  refine ⟨rfl, by decide⟩

/-- C6 (amended): on a malformed (non-2-element) image shape, empty branches,
or empty aspect ratios, `build_anchors` does fail and returns no output, but
the error is a generic unpacking/concatenation `ValueError` raised during the
computation, never the spec's `InvalidConfiguration`. -/
theorem claim_C6_amended (fk : FloatKernel) (image_shape : List ℚ)
    (branches : List (List ℕ)) (ns : ℕ) (ars : List ℚ) (sc : ℚ)
    (hbad : image_shape.length ≠ 2 ∨ branches = [] ∨ ars = []) :
    ∃ e, build_anchors fk image_shape branches ns ars sc = .error e ∧
      e ≠ PyErr.invalidConfiguration := by
  suffices hc : ∃ e, build_anchors_corner fk image_shape branches ns ars sc = .error e ∧
      e ≠ PyErr.invalidConfiguration by
    obtain ⟨e, he, hne⟩ := hc
    refine ⟨e, ?_, hne⟩
    unfold build_anchors
    rw [he]
    rfl
  cases branches with
  | nil =>
    exact ⟨.concatEmpty, rfl, by decide⟩
  | cons b bs =>
    have hrange : List.range (b :: bs).length = 0 :: (List.range bs.length).map Nat.succ := by
      rw [List.length_cons]
      exact List.range_succ_eq_map bs.length
    rcases hbad with hshape | hempty | hars
    · have hst : build_strides 0 image_shape (b :: bs) (ns * ars.length) =
          .error .unpackMismatch := by
        unfold build_strides
        rw [unpack2_error image_shape hshape]
        rfl
      refine ⟨.unpackMismatch, ?_, by decide⟩
      unfold build_anchors_corner
      rw [hrange, mapExcept_error_head _ (by rw [hst]; rfl)]
      rfl
    · exact absurd hempty (by simp)
    · subst hars
      rcases unpack2_cases image_shape with ⟨ih, iw, himg⟩ | himgerr
      · subst himg
        rcases unpack2_cases (((b :: bs).getD 0 []).drop 1 |>.take 2) with
          ⟨fH, fW, hfeat⟩ | herr
        · have hst : build_strides 0 [ih, iw] (b :: bs) (ns * ([] : List ℚ).length) =
              .ok ([], []) := by
            unfold build_strides
            rw [hfeat]
            rfl
          refine ⟨.concatEmpty, ?_, by decide⟩
          unfold build_anchors_corner
          rw [hrange, mapExcept_error_head _ (by rw [hst]; rfl)]
          rfl
        · have hst : build_strides 0 [ih, iw] (b :: bs) (ns * ([] : List ℚ).length) =
              .error .unpackMismatch := by
            unfold build_strides
            rw [herr]
            rfl
          refine ⟨.unpackMismatch, ?_, by decide⟩
          unfold build_anchors_corner
          rw [hrange, mapExcept_error_head _ (by rw [hst]; rfl)]
          rfl
      · have hst : build_strides 0 image_shape (b :: bs) (ns * ([] : List ℚ).length) =
            .error .unpackMismatch := by
          unfold build_strides
          rw [himgerr]
          rfl
        refine ⟨.unpackMismatch, ?_, by decide⟩
        unfold build_anchors_corner
        rw [hrange, mapExcept_error_head _ (by rw [hst]; rfl)]
        rfl


/-- C6 amended witness: empty branches at an otherwise ordinary
configuration produce a non-InvalidConfiguration error. -/
theorem claim_C6_amended_witness :
    ∃ e, build_anchors fkOne [128, 128] [] 3 [1] 4 = .error e ∧
      e ≠ PyErr.invalidConfiguration :=
  claim_C6_amended fkOne [128, 128] [] 3 [1] 4 (Or.inr (Or.inl rfl))

end Anchors

namespace ShapesLoader

/-- A sampled shape descriptor, as `Shapes._sample_shape` returns it:
`(shape kind, (R, G, B), (center_x, center_y, size))`. -/
abbrev ShapeSpec : Type := String × (ℤ × ℤ × ℤ) × (ℤ × ℤ × ℤ)

/-- One mask channel: a fixed `H x W` array of 0/1 values, modelled as its
pixel function `(x, y) ↦ value`. -/
abbrev Mask : Type := ℕ × ℕ → Bool

def zero_mask : Mask := fun _ => false

/-- Embedding of `np.logical_and` on two mask channels. -/
def np_logical_and (a b : Mask) : Mask := fun p => a p && b p

/-- Embedding of `np.logical_xor` on two mask channels. -/
def np_logical_xor (a b : Mask) : Mask := fun p => xor (a p) (b p)

/-- One inner iteration of the occlusion loop of `Shapes._draw_masks`:
`masks[:, :, i] = masks[:, :, i] XOR (masks[:, :, i] AND masks[:, :, j])`. -/
def occlusion_step (i j : ℕ) (masks : List Mask) : List Mask :=
  masks.set i (np_logical_xor (masks.getD i zero_mask)
    (np_logical_and (masks.getD i zero_mask) (masks.getD j zero_mask)))

/-- The double loop over channel pairs `(i, j)` with `i < j` at the end of
`Shapes._draw_masks` (lines 117-121). -/
def resolve_occlusion (masks : List Mask) : List Mask :=
  (List.range masks.length).foldl
    (fun ms i =>
      (List.range' (i + 1) (ms.length - (i + 1))).foldl
        (fun ms2 j => occlusion_step i j ms2) ms) masks

/-- Whether any channel with an index above `i` covers pixel `p` in `masks`. -/
def later_cover (masks : List Mask) (i : ℕ) : Mask :=
  fun p => (List.range' (i + 1) (masks.length - (i + 1))).any
    (fun j => masks.getD j zero_mask p)

/-- Embedding of `Shapes._draw_shape` on a mask canvas with the unit color: the external
rasterizer (`draw_square` / `draw_circle` / `draw_triangle`, external
collaborators per the spec) stamps the shape's covered pixels, given by the
coverage function `raster`, leaving the rest of the canvas unchanged. -/
def draw_shape_mask (raster : ShapeSpec → Mask) (image : Mask) (s : ShapeSpec) : Mask :=
  fun p => image p || raster s p

/-- Lines 106-115 of `Shapes._draw_masks`: allocate `max_num_shapes` zero
channels and stamp shape `i` into channel `i`. -/
def stamp_masks (raster : ShapeSpec → Mask) (max_num_shapes : ℕ)
    (shapes : List ShapeSpec) : List Mask :=
  shapes.enum.foldl
    (fun class_masks si =>
      class_masks.set si.1 (draw_shape_mask raster (class_masks.getD si.1 zero_mask) si.2))
    ((List.range max_num_shapes).map (fun _ => zero_mask))

/-- Embedding of `Shapes._draw_masks`: stamp each shape into its own channel, then resolve
occlusion pairwise. -/
def draw_masks (raster : ShapeSpec → Mask) (max_num_shapes : ℕ)
    (shapes : List ShapeSpec) : List Mask :=
  resolve_occlusion (stamp_masks raster max_num_shapes shapes)

/-- Python `random.randint(a, b)` (both endpoints INCLUSIVE), driven by one
entry `u` of a uniform random tape of naturals: reducing `u` modulo the
`b - a + 1` possible outcomes makes one period `u = 0 .. b - a` hit every
value of `[a, b]` exactly once. -/
def py_randint (a b : ℤ) (u : ℕ) : ℤ := a + ((u % (b + 1 - a).toNat : ℕ) : ℤ)

/-- Embedding of `np.random.randint(low, high)`: the upper bound is EXCLUSIVE. -/
def np_random_randint (low high : ℤ) (u : ℕ) : ℤ :=
  low + ((u % (high - low).toNat : ℕ) : ℤ)

/-- Python `random.choice(xs)`: a uniformly chosen element of `xs`. -/
def py_choice (xs : List String) (u : ℕ) : String := xs.getD (u % xs.length) ""

/-- Embedding of `Shapes._sample_shape`: one shape descriptor from seven tape entries;
the kind is chosen from the non-background classes `class_names[1:]`, the
color by `np.random.randint(0, 255, size=3)`, the geometry by inclusive
`random.randint` calls. -/
def sample_shape (class_names : List String) (H W offset : ℤ) (t : ℕ → ℕ) : ShapeSpec :=
  (py_choice (class_names.drop 1) (t 0),
   (np_random_randint 0 255 (t 1), np_random_randint 0 255 (t 2),
    np_random_randint 0 255 (t 3)),
   (py_randint offset (W - offset - 1) (t 4),
    py_randint offset (H - offset - 1) (t 5),
    py_randint offset (H / 4) (t 6)))

/-- Embedding of `Shapes._sample_shapes`: draw `N = random.randint(1, num_shapes)` and then
`N` shapes, each consuming its own seven tape entries; every call passes the
literal `offset=20`. -/
def sample_shapes (class_names : List String) (num_shapes : ℤ) (H W : ℤ) (t : ℕ → ℕ) :
    List ShapeSpec :=
  let N := py_randint 1 num_shapes (t 0)
  (List.range N.toNat).map (fun k => sample_shape class_names H W 20 (fun i => t (1 + 7 * k + i)))

/-- Embedding of `Shapes._compute_bounding_box`: the axis-aligned square bound
`(x - s, y - s, x + s, y + s)`. -/
def compute_bounding_box (center_x center_y size : ℤ) : List ℤ :=
  [center_x - size, center_y - size, center_x + size, center_y + size]

/-- Embedding of `Shapes._compute_bounding_boxes`. -/
def compute_bounding_boxes (shapes : List ShapeSpec) : List (List ℤ) :=
  shapes.map (fun s => compute_bounding_box s.2.2.1 s.2.2.2.1 s.2.2.2.2)

/-- Modelled from the spec: the intersection-over-union of two corner-form
boxes, as used by `paz.backend.boxes.apply_non_max_suppression` (repository
code that is not under `src/`). -/
def iou (a b : List ℤ) : ℚ :=
  let ix := min (a.getD 2 0) (b.getD 2 0) - max (a.getD 0 0) (b.getD 0 0)
  let iy := min (a.getD 3 0) (b.getD 3 0) - max (a.getD 1 0) (b.getD 1 0)
  let inter := max ix 0 * max iy 0
  let area_a := (a.getD 2 0 - a.getD 0 0) * (a.getD 3 0 - a.getD 1 0)
  let area_b := (b.getD 2 0 - b.getD 0 0) * (b.getD 3 0 - b.getD 1 0)
  ((inter : ℤ) : ℚ) / (((area_a + area_b - inter : ℤ)) : ℚ)

/-- Modelled from the spec: the greedy loop of
`paz.backend.boxes.apply_non_max_suppression` in the uniform-score case the
sampler uses (all scores 1.0): boxes are considered in original index order
(the spec's tie-breaking rule for equal scores) and a box is dropped exactly
when its IoU with an already-kept box exceeds the threshold. -/
def nms_go (iou_thresh : ℚ) : List (ℕ × List ℤ) → List (List ℤ) → List ℕ
  | [], _ => []
  | (i, b) :: rest, kept =>
    if kept.any (fun k => decide (iou_thresh < iou k b)) then nms_go iou_thresh rest kept
    else i :: nms_go iou_thresh rest (b :: kept)

/-- Modelled from the spec: `apply_non_max_suppression(boxes, scores,
iou_thresh)` with uniform scores; returns the kept indices in kept order
(the `(args, num_boxes)` pair of the original, already truncated). -/
def apply_non_max_suppression (boxes : List (List ℤ)) (iou_thresh : ℚ) : List ℕ :=
  nms_go iou_thresh boxes.enum []

/-- Embedding of `Shapes._filter_shapes`: keep the shapes and boxes NMS selects. -/
def filter_shapes (boxes : List (List ℤ)) (shapes : List ShapeSpec) (iou_thresh : ℚ) :
    List ShapeSpec × List (List ℤ) :=
  let box_args := apply_non_max_suppression boxes iou_thresh
  (box_args.map (fun i => shapes.getD i ("", (0, 0, 0), (0, 0, 0))),
   box_args.map (fun i => boxes.getD i []))

/-- The `name_to_arg` dictionary of `Shapes.__init__`: class name to index. -/
def name_to_arg (class_names : List String) (name : String) : ℤ :=
  (class_names.indexOf name : ℕ)

/-- Embedding of `Shapes.load_sample`: sample, box, NMS-filter, draw masks, and assemble
`box_data` (4 box coordinates plus the class index).  The rasterized RGB
image is produced by the external drawing primitives and carries no claim;
the sample is modelled by its `masks` and `box_data` fields. -/
def load_sample (raster : ShapeSpec → Mask) (class_names : List String)
    (iou_thresh : ℚ) (max_num_shapes : ℤ) (H W : ℤ) (t : ℕ → ℕ) :
    List Mask × List (List ℤ) :=
  let shapes := sample_shapes class_names max_num_shapes H W t
  let boxes := compute_bounding_boxes shapes
  let filtered := filter_shapes boxes shapes iou_thresh
  let masks := draw_masks raster max_num_shapes.toNat filtered.1
  let class_args := filtered.1.map (fun s => name_to_arg class_names s.1)
  let box_data := (filtered.2.zip class_args).map (fun bc => bc.1 ++ [bc.2])
  (masks, box_data)

/-- Modelled from the spec: `paz.backend.image.draw.draw_square` (an external
rasterization primitive, not under `src/`) stamps the filled axis-aligned
square of half-side `size` centered at `(center_x, center_y)` — exactly the
region whose bounding box `Shapes._compute_bounding_box` computes. -/
def square_raster : ShapeSpec → Mask := fun s p =>
  decide (s.2.2.1 - s.2.2.2.2 ≤ (p.1 : ℤ)) && decide ((p.1 : ℤ) ≤ s.2.2.1 + s.2.2.2.2) &&
    decide (s.2.2.2.1 - s.2.2.2.2 ≤ (p.2 : ℤ)) && decide ((p.2 : ℤ) ≤ s.2.2.2.1 + s.2.2.2.2)

/-- A mask channel contains a nonzero pixel of the `H x W` grid. -/
def mask_nonempty (H W : ℕ) (m : Mask) : Bool :=
  (List.range W).any (fun x => (List.range H).any (fun y => m (x, y)))

/-- The number of mask channels with at least one nonzero pixel. -/
def num_nonempty_channels (H W : ℕ) (masks : List Mask) : ℕ :=
  (masks.filter (fun m => mask_nonempty H W m)).length

/-! ## The occlusion-resolution loop -/

theorem getD_set_self_mask (l : List Mask) (i : ℕ) (v : Mask) (h : i < l.length) :
    (l.set i v).getD i zero_mask = v := by
  rw [List.getD_eq_getElem _ _ (by simpa using h)]
  simp

theorem getD_set_ne_mask (l : List Mask) (i k : ℕ) (v : Mask) (h : i ≠ k) :
    (l.set i v).getD k zero_mask = l.getD k zero_mask := by
  rcases Nat.lt_or_ge k l.length with hk | hk
  · rw [List.getD_eq_getElem _ _ (by simpa using hk), List.getD_eq_getElem _ _ hk]
    exact List.getElem_set_ne h _
  · rw [List.getD_eq_default _ _ (by simpa using hk), List.getD_eq_default _ _ hk]

theorem any_congr_mem {α : Type} {l : List α} {f g : α → Bool}
    (h : ∀ x ∈ l, f x = g x) : l.any f = l.any g := by
  induction l with
  | nil => rfl
  | cons a as ih =>
    simp only [List.any_cons]
    rw [h a (List.mem_cons_self a as), ih (fun x hx => h x (List.mem_cons_of_mem a hx))]

theorem foldl_length_inv {β : Type} (f : List Mask → β → List Mask)
    (hf : ∀ ms b, (f ms b).length = ms.length) :
    ∀ (l : List β) (ms : List Mask), (l.foldl f ms).length = ms.length
  | [], _ => rfl
  | b :: bs, ms => by
    rw [List.foldl_cons, foldl_length_inv f hf bs (f ms b), hf]

theorem resolve_occlusion_length (masks : List Mask) :
    (resolve_occlusion masks).length = masks.length := by
  unfold resolve_occlusion
  apply foldl_length_inv
  intro ms i
  apply foldl_length_inv
  intro ms2 j
  simp [occlusion_step]

/-- Effect of one full inner loop at outer index `i`: channel `i` keeps
exactly its pixels not covered by any channel whose index appears in `js`
(all greater than `i`); the other channels are untouched. -/
theorem inner_loop_spec (i : ℕ) :
    ∀ (js : List ℕ) (ms : List Mask), (∀ j ∈ js, i < j) → i < ms.length →
      ((js.foldl (fun ms2 j => occlusion_step i j ms2) ms).length = ms.length ∧
       (∀ k, k ≠ i → (js.foldl (fun ms2 j => occlusion_step i j ms2) ms).getD k zero_mask =
          ms.getD k zero_mask) ∧
       ∀ p, (js.foldl (fun ms2 j => occlusion_step i j ms2) ms).getD i zero_mask p =
          (ms.getD i zero_mask p && !(js.any (fun j => ms.getD j zero_mask p)))) := by
  intro js
  induction js with
  | nil =>
    intro ms _ _
    refine ⟨rfl, fun k _ => rfl, fun p => ?_⟩
    simp
  | cons j js ih =>
    intro ms hgt hi
    have hgt' : ∀ j' ∈ js, i < j' := fun j' hj' => hgt j' (List.mem_cons_of_mem j hj')
    have hij : i ≠ j := Nat.ne_of_lt (hgt j (List.mem_cons_self j js))
    have hstep_len : (occlusion_step i j ms).length = ms.length := by simp [occlusion_step]
    obtain ⟨ihlen, ihne, ihi⟩ := ih (occlusion_step i j ms) hgt' (by rw [hstep_len]; exact hi)
    refine ⟨by rw [List.foldl_cons, ihlen, hstep_len], ?_, ?_⟩
    · intro k hk
      rw [List.foldl_cons, ihne k hk, occlusion_step, getD_set_ne_mask _ _ _ _ (Ne.symm hk)]
    · intro p
      rw [List.foldl_cons, ihi p]
      have h1 : (occlusion_step i j ms).getD i zero_mask =
          np_logical_xor (ms.getD i zero_mask)
            (np_logical_and (ms.getD i zero_mask) (ms.getD j zero_mask)) :=
        getD_set_self_mask ms i _ hi
      have h2 : js.any (fun j' => (occlusion_step i j ms).getD j' zero_mask p) =
          js.any (fun j' => ms.getD j' zero_mask p) :=
        any_congr_mem (fun j' hj' => by
          rw [occlusion_step, getD_set_ne_mask _ _ _ _ (Nat.ne_of_lt (hgt' j' hj'))])
      rw [h1, h2]
      simp only [np_logical_xor, np_logical_and, List.any_cons]
      cases ms.getD i zero_mask p <;> cases ms.getD j zero_mask p <;>
        cases js.any (fun j' => ms.getD j' zero_mask p) <;> rfl

/-- Invariant-based run of the outer loop from index `i` on: channels below
`i` already hold their final value, the others are still the initial ones. -/
theorem outer_loop_spec (init : List Mask) :
    ∀ (m i : ℕ) (ms : List Mask), i + m = init.length → ms.length = init.length →
      (∀ k, k < i → ∀ p, ms.getD k zero_mask p =
        (init.getD k zero_mask p && !(later_cover init k p))) →
      (∀ k, i ≤ k → ms.getD k zero_mask = init.getD k zero_mask) →
      ∀ k, k < init.length → ∀ p,
        ((List.range' i m).foldl
          (fun ms2 i' => (List.range' (i' + 1) (ms2.length - (i' + 1))).foldl
            (fun ms3 j => occlusion_step i' j ms3) ms2) ms).getD k zero_mask p =
          (init.getD k zero_mask p && !(later_cover init k p)) := by
  intro m
  induction m with
  | zero =>
    intro i ms hi _ hdone _ k hk p
    simpa using hdone k (by omega) p
  | succ m ih =>
    intro i ms hi hlen hdone hrest k hk p
    rw [List.range'_succ, List.foldl_cons]
    have hilen : i < ms.length := by omega
    have hjsgt : ∀ j ∈ List.range' (i + 1) (ms.length - (i + 1)), i < j := by
      intro j hj
      rw [List.mem_range'] at hj
      omega
    obtain ⟨hlen', hne', hi'⟩ :=
      inner_loop_spec i (List.range' (i + 1) (ms.length - (i + 1))) ms hjsgt hilen
    apply ih (i + 1) _ (by omega) (by rw [hlen']; exact hlen) ?_ ?_ k hk p
    · intro k' hk' p'
      rcases Nat.lt_or_ge k' i with hki | hki
      · rw [hne' k' (by omega)]
        exact hdone k' hki p'
      · have hk_eq : k' = i := by omega
        subst hk_eq
        rw [hi' p']
        rw [hrest k' le_rfl]
        congr 1
        have hany : (List.range' (k' + 1) (ms.length - (k' + 1))).any
            (fun j => ms.getD j zero_mask p') =
            (List.range' (k' + 1) (ms.length - (k' + 1))).any
              (fun j => init.getD j zero_mask p') :=
          any_congr_mem (fun j hj => by rw [hrest j (Nat.le_of_lt (hjsgt j hj))])
        rw [hany, later_cover, hlen]
    · intro k' hk'
      rw [hne' k' (by omega)]
      exact hrest k' (by omega)

/-- The characterization of the occlusion loop: a pixel survives in channel
`i` exactly when channel `i` held it initially and no later channel held it. -/
theorem resolve_occlusion_getD (masks : List Mask) (i : ℕ) (hi : i < masks.length)
    (p : ℕ × ℕ) :
    (resolve_occlusion masks).getD i zero_mask p =
      (masks.getD i zero_mask p && !(later_cover masks i p)) := by
  unfold resolve_occlusion
  rw [List.range_eq_range']
  exact outer_loop_spec masks masks.length 0 masks (by omega) rfl
    (fun k hk _ => absurd hk (by omega)) (fun k _ => rfl) i hi p

theorem mem_range_between {s n j : ℕ} : j ∈ List.range' s n ↔ s ≤ j ∧ j < s + n := by
  rw [List.mem_range']
  constructor
  · rintro ⟨t, ht, rfl⟩
    omega
  · rintro ⟨h1, h2⟩
    exact ⟨j - s, by omega, by omega⟩

theorem stamp_masks_length (raster : ShapeSpec → Mask) (mns : ℕ) (shapes : List ShapeSpec) :
    (stamp_masks raster mns shapes).length = mns := by
  unfold stamp_masks
  have h := foldl_length_inv
    (fun class_masks si =>
      class_masks.set si.1 (draw_shape_mask raster (class_masks.getD si.1 zero_mask) si.2))
    (fun ms b => List.length_set ms b.1 _) shapes.enum
    ((List.range mns).map (fun _ => zero_mask))
  rw [h]
  simp

theorem draw_masks_length (raster : ShapeSpec → Mask) (mns : ℕ) (shapes : List ShapeSpec) :
    (draw_masks raster mns shapes).length = mns := by
  unfold draw_masks
  rw [resolve_occlusion_length, stamp_masks_length]

/-- C2: after the occlusion-resolution loop of `_draw_masks` the channels are
pairwise disjoint — no pixel is 1 in two channels — and channel `i` keeps a
pixel exactly when shape `i` was stamped there and no later-drawn (higher
indexed) channel was stamped at the same pixel, i.e. every contested pixel
stays only in the highest-indexed covering channel. -/
theorem claim_C2 (raster : ShapeSpec → Mask) (mns : ℕ) (shapes : List ShapeSpec) :
    (∀ i j, i < j → j < (draw_masks raster mns shapes).length → ∀ p,
      ¬((draw_masks raster mns shapes).getD i zero_mask p = true ∧
        (draw_masks raster mns shapes).getD j zero_mask p = true)) ∧
    (∀ i, i < (draw_masks raster mns shapes).length → ∀ p,
      ((draw_masks raster mns shapes).getD i zero_mask p = true ↔
        (stamp_masks raster mns shapes).getD i zero_mask p = true ∧
          ∀ j, i < j → j < (draw_masks raster mns shapes).length →
            (stamp_masks raster mns shapes).getD j zero_mask p = false)) := by
  set init := stamp_masks raster mns shapes with hinit
  have hlen : (draw_masks raster mns shapes).length = init.length := by
    unfold draw_masks
    rw [resolve_occlusion_length, hinit]
  have hchar : ∀ i, i < init.length → ∀ p,
      ((draw_masks raster mns shapes).getD i zero_mask p = true ↔
        init.getD i zero_mask p = true ∧
          ∀ j, i < j → j < init.length → init.getD j zero_mask p = false) := by
    intro i hi p
    unfold draw_masks
    rw [resolve_occlusion_getD init i hi p]
    rw [Bool.and_eq_true, Bool.not_eq_true']
    constructor
    · rintro ⟨h1, h2⟩
      refine ⟨h1, fun j hij hj => ?_⟩
      rw [later_cover] at h2
      rw [List.any_eq_false] at h2
      have := h2 j (mem_range_between.mpr ⟨by omega, by omega⟩)
      simpa using this
    · rintro ⟨h1, h2⟩
      refine ⟨h1, ?_⟩
      rw [later_cover, List.any_eq_false]
      intro j hj
      rw [mem_range_between] at hj
      simp only [Bool.not_eq_true]
      exact h2 j (by omega) (by omega)
  constructor
  · intro i j hij hj p hcontra
    obtain ⟨hi', hj'⟩ := hcontra
    rw [hlen] at hj
    have hi : i < init.length := lt_trans hij hj
    obtain ⟨hstamp_i, hnone⟩ := (hchar i hi p).mp hi'
    have hstamp_j : init.getD j zero_mask p = true :=
      ((hchar j hj p).mp hj').1
    rw [hnone j hij hj] at hstamp_j
    exact Bool.false_ne_true hstamp_j
  · intro i hi p
    rw [hlen] at hi ⊢
    exact hchar i hi p

/-- C2 witness: the disjointness and highest-channel-wins characterization at
a concrete instantiation (two channels, empty shape list, pixel (0, 0)). -/
theorem claim_C2_witness :
    (¬((draw_masks (fun _ => zero_mask) 2 []).getD 0 zero_mask (0, 0) = true ∧
        (draw_masks (fun _ => zero_mask) 2 []).getD 1 zero_mask (0, 0) = true)) ∧
    ((draw_masks (fun _ => zero_mask) 2 []).getD 0 zero_mask (0, 0) = true ↔
      (stamp_masks (fun _ => zero_mask) 2 []).getD 0 zero_mask (0, 0) = true ∧
        ∀ j, 0 < j → j < (draw_masks (fun _ => zero_mask) 2 []).length →
          (stamp_masks (fun _ => zero_mask) 2 []).getD j zero_mask (0, 0) = false) :=
  ⟨(claim_C2 (fun _ => zero_mask) 2 []).1 0 1 (by decide)
      (by rw [draw_masks_length]; decide) (0, 0),
   (claim_C2 (fun _ => zero_mask) 2 []).2 0
      (by rw [draw_masks_length]; decide) (0, 0)⟩

/-! ## Shape counts and NMS filtering -/

theorem nms_go_length_le (thr : ℚ) :
    ∀ (l : List (ℕ × List ℤ)) (kept : List (List ℤ)),
      (nms_go thr l kept).length ≤ l.length := by
  intro l
  induction l with
  | nil =>
    intro kept
    simp [nms_go]
  | cons hb rest ih =>
    intro kept
    obtain ⟨i, b⟩ := hb
    rw [nms_go]
    split
    · exact le_trans (ih kept) (by simp)
    · simpa using Nat.succ_le_succ (ih (b :: kept))

theorem sample_shapes_length_le (cns : List String) (mns H W : ℤ) (t : ℕ → ℕ)
    (hmns : 1 ≤ mns) :
    (sample_shapes cns mns H W t).length ≤ mns.toNat := by
  unfold sample_shapes py_randint
  simp only [List.length_map, List.length_range]
  have hsimp : mns + 1 - 1 = mns := by ring
  rw [hsimp]
  have hpos : 0 < mns.toNat := by omega
  have hmod := Nat.mod_lt (t 0) hpos
  omega

/-- C10: the number of shapes surviving NMS filtering never exceeds
`max_num_shapes` (N is drawn at most `max_num_shapes` and NMS only removes
elements), so every channel index `_draw_masks` stamps is within the
`max_num_shapes` pre-allocated channels and the more-survivors-than-capacity
situation is unreachable. -/
theorem claim_C10 (raster : ShapeSpec → Mask) (cns : List String) (thr : ℚ)
    (mns H W : ℤ) (t : ℕ → ℕ) (hmns : 1 ≤ mns) :
    ((filter_shapes (compute_bounding_boxes (sample_shapes cns mns H W t))
        (sample_shapes cns mns H W t) thr).1.length ≤ mns.toNat) ∧
    (∀ k, k < (filter_shapes (compute_bounding_boxes (sample_shapes cns mns H W t))
        (sample_shapes cns mns H W t) thr).1.length → k < mns.toNat) ∧
    (stamp_masks raster mns.toNat
        (filter_shapes (compute_bounding_boxes (sample_shapes cns mns H W t))
          (sample_shapes cns mns H W t) thr).1).length = mns.toNat := by
  have hfl : (filter_shapes (compute_bounding_boxes (sample_shapes cns mns H W t))
      (sample_shapes cns mns H W t) thr).1.length ≤ mns.toNat := by
    unfold filter_shapes apply_non_max_suppression
    simp only [List.length_map]
    calc (nms_go thr (compute_bounding_boxes (sample_shapes cns mns H W t)).enum []).length
        ≤ (compute_bounding_boxes (sample_shapes cns mns H W t)).enum.length :=
          nms_go_length_le thr _ []
      _ = (sample_shapes cns mns H W t).length := by
          simp [compute_bounding_boxes, List.enum_length]
      _ ≤ mns.toNat := sample_shapes_length_le cns mns H W t hmns
  exact ⟨hfl, fun k hk => lt_of_lt_of_le hk hfl, stamp_masks_length raster mns.toNat _⟩

/-- C10 witness: a concrete instantiation of the capacity bound. -/
theorem claim_C10_witness :
    ((filter_shapes (compute_bounding_boxes
        (sample_shapes ["BG", "square", "circle", "triangle"] 4 160 160 (fun _ => 0)))
        (sample_shapes ["BG", "square", "circle", "triangle"] 4 160 160 (fun _ => 0))
        (3 / 10)).1.length ≤ (4 : ℤ).toNat) ∧
    (∀ k, k < (filter_shapes (compute_bounding_boxes
        (sample_shapes ["BG", "square", "circle", "triangle"] 4 160 160 (fun _ => 0)))
        (sample_shapes ["BG", "square", "circle", "triangle"] 4 160 160 (fun _ => 0))
        (3 / 10)).1.length → k < (4 : ℤ).toNat) ∧
    (stamp_masks (fun _ => zero_mask) (4 : ℤ).toNat
        (filter_shapes (compute_bounding_boxes
          (sample_shapes ["BG", "square", "circle", "triangle"] 4 160 160 (fun _ => 0)))
          (sample_shapes ["BG", "square", "circle", "triangle"] 4 160 160 (fun _ => 0))
          (3 / 10)).1).length = (4 : ℤ).toNat :=
  claim_C10 (fun _ => zero_mask) ["BG", "square", "circle", "triangle"] (3 / 10)
    4 160 160 (fun _ => 0) (by norm_num)

/-! ## Distributions of the shape sampler -/

/-- Over one full period of the uniform tape entry, `random.randint(a, b)`
hits every value of `[a, b]` exactly once, in order. -/
theorem py_randint_period (a b : ℤ) (_hab : a ≤ b) :
    (List.range (b + 1 - a).toNat).map (fun u => py_randint a b u) =
      (List.range (b + 1 - a).toNat).map (fun k : ℕ => a + (k : ℤ)) := by
  apply List.map_congr_left
  intro u hu
  rw [List.mem_range] at hu
  unfold py_randint
  rw [Nat.mod_eq_of_lt hu]

/-- The value `random.randint(a, b)` always lands in `[a, b]`. -/
theorem py_randint_bounds (a b : ℤ) (hab : a ≤ b) (u : ℕ) :
    a ≤ py_randint a b u ∧ py_randint a b u ≤ b := by
  unfold py_randint
  have hpos : 0 < (b + 1 - a).toNat := by omega
  have hmod := Nat.mod_lt u hpos
  omega

/-- One full period of `np.random.randint(0, 255)` hits exactly `0 .. 254`:
the upper bound is exclusive. -/
theorem np_random_randint_255_period :
    (List.range 255).map (fun u => np_random_randint 0 255 u) =
      (List.range 255).map (fun k : ℕ => (k : ℤ)) := by
  apply List.map_congr_left
  intro u hu
  rw [List.mem_range] at hu
  unfold np_random_randint
  rw [show ((255 : ℤ) - 0).toNat = 255 from rfl, Nat.mod_eq_of_lt hu]
  omega

/-- C7 counterexample: the color component sampler
`np.random.randint(0, 255, ...)` has an EXCLUSIVE upper bound: over one full
period of the uniform source it hits exactly `0 .. 254` and never 255, so the
color components are not uniform on `[0, 255]`. -/
theorem claim_C7_counterexample :
    (List.range 255).map (fun u => np_random_randint 0 255 u) =
      (List.range 255).map (fun k : ℕ => (k : ℤ)) ∧
    (255 : ℤ) ∉ (List.range 255).map (fun k : ℕ => (k : ℤ)) := by
  refine ⟨np_random_randint_255_period, ?_⟩
  rw [List.mem_map]
  rintro ⟨k, hk, heq⟩
  rw [List.mem_range] at hk
  omega

/-- C7 (amended): with the default classes, `_sample_shape` picks the kind
uniformly from the three non-background classes, each color component
uniformly on `[0, 254]` (np.random.randint's upper bound 255 is exclusive),
each center inside `[offset, dimension - offset - 1]` with offset fixed at
20, and the size uniformly on `[offset, H // 4]`; `_sample_shapes` draws
N uniformly on `[1, max_num_shapes]`. -/
theorem claim_C7_amended (H W mns : ℤ) (t : ℕ → ℕ) (u : ℕ)
    (hmns : 1 ≤ mns) (hW : 41 ≤ W) (hH : 80 ≤ H) :
    sample_shape ["BG", "square", "circle", "triangle"] H W 20 t =
      (py_choice ["square", "circle", "triangle"] (t 0),
       (np_random_randint 0 255 (t 1), np_random_randint 0 255 (t 2),
        np_random_randint 0 255 (t 3)),
       (py_randint 20 (W - 20 - 1) (t 4), py_randint 20 (H - 20 - 1) (t 5),
        py_randint 20 (H / 4) (t 6))) ∧
    (List.range mns.toNat).map (fun v => py_randint 1 mns v) =
      (List.range mns.toNat).map (fun k : ℕ => 1 + (k : ℤ)) ∧
    (List.range 3).map
        (fun v => py_choice (["BG", "square", "circle", "triangle"].drop 1) v) =
      ["square", "circle", "triangle"] ∧
    (List.range 255).map (fun v => np_random_randint 0 255 v) =
      (List.range 255).map (fun k : ℕ => (k : ℤ)) ∧
    (20 ≤ py_randint 20 (W - 20 - 1) u ∧ py_randint 20 (W - 20 - 1) u ≤ W - 20 - 1) ∧
    (20 ≤ py_randint 20 (H - 20 - 1) u ∧ py_randint 20 (H - 20 - 1) u ≤ H - 20 - 1) ∧
    (20 ≤ py_randint 20 (H / 4) u ∧ py_randint 20 (H / 4) u ≤ H / 4) := by
  refine ⟨rfl, ?_, rfl, np_random_randint_255_period,
    py_randint_bounds 20 (W - 20 - 1) (by omega) u,
    py_randint_bounds 20 (H - 20 - 1) (by omega) u,
    py_randint_bounds 20 (H / 4) (by omega) u⟩
  have hper := py_randint_period 1 mns hmns
  rw [show mns + 1 - 1 = mns from by ring] at hper
  exact hper

/-- C7 amended witness: the distribution facts at a concrete configuration. -/
theorem claim_C7_amended_witness :
    sample_shape ["BG", "square", "circle", "triangle"] 100 100 20 (fun _ => 0) =
      (py_choice ["square", "circle", "triangle"] 0,
       (np_random_randint 0 255 0, np_random_randint 0 255 0, np_random_randint 0 255 0),
       (py_randint 20 (100 - 20 - 1) 0, py_randint 20 (100 - 20 - 1) 0,
        py_randint 20 (100 / 4) 0)) ∧
    (List.range (4 : ℤ).toNat).map (fun v => py_randint 1 4 v) =
      (List.range (4 : ℤ).toNat).map (fun k : ℕ => 1 + (k : ℤ)) ∧
    (List.range 3).map
        (fun v => py_choice (["BG", "square", "circle", "triangle"].drop 1) v) =
      ["square", "circle", "triangle"] ∧
    (List.range 255).map (fun v => np_random_randint 0 255 v) =
      (List.range 255).map (fun k : ℕ => (k : ℤ)) ∧
    (20 ≤ py_randint 20 ((100 : ℤ) - 20 - 1) 0 ∧
      py_randint 20 ((100 : ℤ) - 20 - 1) 0 ≤ (100 : ℤ) - 20 - 1) ∧
    (20 ≤ py_randint 20 ((100 : ℤ) - 20 - 1) 0 ∧
      py_randint 20 ((100 : ℤ) - 20 - 1) 0 ≤ (100 : ℤ) - 20 - 1) ∧
    (20 ≤ py_randint 20 ((100 : ℤ) / 4) 0 ∧ py_randint 20 ((100 : ℤ) / 4) 0 ≤ (100 : ℤ) / 4) :=
  claim_C7_amended 100 100 4 (fun _ => 0) 0 (by norm_num) (by norm_num) (by norm_num)

/-! ## Non-empty mask channels versus box rows -/

theorem fst_lt_of_mem_enumFrom {α : Type} :
    ∀ (l : List α) (n : ℕ) (p : ℕ × α), p ∈ l.enumFrom n → p.1 < n + l.length := by
  intro l
  induction l with
  | nil =>
    intro n p hp
    simp [List.enumFrom] at hp
  | cons a as ih =>
    intro n p hp
    rw [show (a :: as).enumFrom n = (n, a) :: as.enumFrom (n + 1) from rfl,
      List.mem_cons] at hp
    rcases hp with rfl | hp
    · simp
    · have := ih (n + 1) p hp
      simp only [List.length_cons]
      omega

theorem foldl_set_getD_untouched {β : Type} (g : List Mask → β → Mask) (idx : β → ℕ)
    (k : ℕ) :
    ∀ (l : List β), (∀ b ∈ l, idx b ≠ k) → ∀ ms : List Mask,
      (l.foldl (fun cm b => cm.set (idx b) (g cm b)) ms).getD k zero_mask =
        ms.getD k zero_mask
  | [], _, _ => rfl
  | b :: bs, h, ms => by
    rw [List.foldl_cons,
      foldl_set_getD_untouched g idx k bs (fun b' hb' => h b' (List.mem_cons_of_mem b hb')) _,
      getD_set_ne_mask _ _ _ _ (h b (List.mem_cons_self b bs))]

theorem base_masks_getD (mns k : ℕ) :
    ((List.range mns).map (fun _ => zero_mask)).getD k zero_mask = zero_mask := by
  rcases Nat.lt_or_ge k mns with hk | hk
  · rw [List.getD_eq_getElem _ _ (by simpa using hk), List.getElem_map]
  · rw [List.getD_eq_default _ _ (by simpa using hk)]

/-- Channels at or beyond the number of shapes are never stamped. -/
theorem stamp_masks_getD_ge (raster : ShapeSpec → Mask) (mns : ℕ)
    (shapes : List ShapeSpec) (k : ℕ) (hk : shapes.length ≤ k) :
    (stamp_masks raster mns shapes).getD k zero_mask = zero_mask := by
  unfold stamp_masks
  have h := foldl_set_getD_untouched
    (fun cm (si : ℕ × ShapeSpec) => draw_shape_mask raster (cm.getD si.1 zero_mask) si.2)
    (fun si => si.1) k shapes.enum
    (fun si hsi => by
      show si.1 ≠ k
      have := fst_lt_of_mem_enumFrom shapes 0 si hsi
      omega)
    ((List.range mns).map (fun _ => zero_mask))
  rw [h, base_masks_getD]

/-- After occlusion resolution, channels at or beyond the number of drawn
shapes stay empty. -/
theorem draw_masks_getD_ge (raster : ShapeSpec → Mask) (mns : ℕ)
    (shapes : List ShapeSpec) (k : ℕ) (hk : shapes.length ≤ k) (p : ℕ × ℕ) :
    (draw_masks raster mns shapes).getD k zero_mask p = false := by
  unfold draw_masks
  rcases Nat.lt_or_ge k (stamp_masks raster mns shapes).length with hkl | hkl
  · rw [resolve_occlusion_getD _ k hkl p, stamp_masks_getD_ge raster mns shapes k hk]
    rfl
  · rw [List.getD_eq_default _ _ (by rw [resolve_occlusion_length]; simpa using hkl)]
    rfl

theorem mask_nonempty_false {Hp Wp : ℕ} {m : Mask} (h : ∀ p, m p = false) :
    mask_nonempty Hp Wp m = false := by
  unfold mask_nonempty
  rw [List.any_eq_false]
  intro x _
  simp only [Bool.not_eq_true]
  rw [List.any_eq_false]
  intro y _
  simp only [Bool.not_eq_true]
  exact h (x, y)

theorem mask_nonempty_true {Hp Wp : ℕ} {m : Mask} (x y : ℕ) (hx : x < Wp) (hy : y < Hp)
    (h : m (x, y) = true) : mask_nonempty Hp Wp m = true := by
  unfold mask_nonempty
  rw [List.any_eq_true]
  exact ⟨x, List.mem_range.mpr hx, by rw [List.any_eq_true]; exact ⟨y, List.mem_range.mpr hy, h⟩⟩

/-- If all channels with index `≥ L` are empty, at most `L` channels are
non-empty. -/
theorem filter_nonempty_le (Hp Wp : ℕ) :
    ∀ (ms : List Mask) (L : ℕ),
      (∀ k, L ≤ k → ∀ p, ms.getD k zero_mask p = false) →
      (ms.filter (fun m => mask_nonempty Hp Wp m)).length ≤ L := by
  intro ms
  induction ms with
  | nil =>
    intro L _
    simp
  | cons m ms ih =>
    intro L hL
    have htail : ∀ k, L - 1 ≤ k → ∀ p, ms.getD k zero_mask p = false := by
      intro k hk p
      have := hL (k + 1) (by omega) p
      simpa using this
    cases L with
    | zero =>
      have hm : mask_nonempty Hp Wp m = false :=
        mask_nonempty_false (fun p => hL 0 (by omega) p)
      rw [List.filter_cons, hm]
      simpa using ih 0 (by simpa using htail)
    | succ L' =>
      rw [List.filter_cons]
      have hih := ih L' (by simpa using htail)
      split
      · simpa using Nat.succ_le_succ hih
      · omega

/-- C5 (amended): `box_data` has exactly one row per NMS survivor, and the
number of non-empty mask channels is at most the number of `box_data` rows;
the two can differ (a later surviving shape that completely covers an earlier
one empties the earlier channel, see the counterexample). -/
theorem claim_C5_amended (raster : ShapeSpec → Mask) (cns : List String) (thr : ℚ)
    (mns H W : ℤ) (t : ℕ → ℕ) (Hp Wp : ℕ) :
    (load_sample raster cns thr mns H W t).2.length =
      (apply_non_max_suppression
        (compute_bounding_boxes (sample_shapes cns mns H W t)) thr).length ∧
    num_nonempty_channels Hp Wp (load_sample raster cns thr mns H W t).1 ≤
      (load_sample raster cns thr mns H W t).2.length := by
  have hlen2 : (load_sample raster cns thr mns H W t).2.length =
      (apply_non_max_suppression
        (compute_bounding_boxes (sample_shapes cns mns H W t)) thr).length := by
    simp only [load_sample, filter_shapes, List.length_map, List.length_zip, min_self]
  refine ⟨hlen2, ?_⟩
  rw [hlen2]
  have hmask1 : (load_sample raster cns thr mns H W t).1 =
      draw_masks raster mns.toNat
        (filter_shapes (compute_bounding_boxes (sample_shapes cns mns H W t))
          (sample_shapes cns mns H W t) thr).1 := by
    simp only [load_sample]
  rw [hmask1]
  unfold num_nonempty_channels
  apply filter_nonempty_le
  intro k hk p
  apply draw_masks_getD_ge
  calc (filter_shapes (compute_bounding_boxes (sample_shapes cns mns H W t))
      (sample_shapes cns mns H W t) thr).1.length
      = (apply_non_max_suppression
          (compute_bounding_boxes (sample_shapes cns mns H W t)) thr).length := by
        simp [filter_shapes]
    _ ≤ k := hk

/-- A concrete random tape for `load_sample`: two shapes, a size-20 square
and a size-40 square, both centered at (80, 80) on a 160 x 160 canvas. -/
def c5_tape : ℕ → ℕ :=
  fun i => [1, 0, 0, 0, 0, 60, 60, 0, 0, 0, 0, 0, 60, 60, 20].getD i 0

theorem list_len4 {α : Type} (l : List α) (h : l.length = 4) :
    ∃ a b c d, l = [a, b, c, d] := by
  rcases l with _ | ⟨a, _ | ⟨b, _ | ⟨c, _ | ⟨d, _ | ⟨e, rest⟩⟩⟩⟩⟩
  · simp at h
  · simp at h
  · simp at h
  · simp at h
  · exact ⟨a, b, c, d, rfl⟩
  · exact absurd h (by simp)

theorem c5_shapes :
    sample_shapes ["BG", "square", "circle", "triangle"] 4 160 160 c5_tape =
      [("square", (0, 0, 0), (80, 80, 20)), ("square", (0, 0, 0), (80, 80, 40))] := by
  decide

theorem c5_boxes :
    compute_bounding_boxes
        [("square", (0, 0, 0), (80, 80, 20)), ("square", (0, 0, 0), (80, 80, 40))] =
      [[60, 60, 100, 100], [40, 40, 120, 120]] := by
  decide

theorem c5_iou :
    iou [60, 60, 100, 100] [40, 40, 120, 120] = 1 / 4 := by
  unfold iou
  simp only [List.getD_cons_zero, List.getD_cons_succ]
  norm_num

theorem c5_nms :
    apply_non_max_suppression [[60, 60, 100, 100], [40, 40, 120, 120]] (3 / 10) = [0, 1] := by
  have hdec : decide ((3 : ℚ) / 10 < iou [60, 60, 100, 100] [40, 40, 120, 120]) = false := by
    rw [c5_iou]
    exact decide_eq_false (by norm_num)
  unfold apply_non_max_suppression
  rw [show ([[60, 60, 100, 100], [40, 40, 120, 120]] : List (List ℤ)).enum =
    [(0, [60, 60, 100, 100]), (1, [40, 40, 120, 120])] from rfl]
  simp [nms_go, hdec]

theorem c5_filter :
    filter_shapes [[60, 60, 100, 100], [40, 40, 120, 120]]
        [("square", (0, 0, 0), (80, 80, 20)), ("square", (0, 0, 0), (80, 80, 40))] (3 / 10) =
      ([("square", (0, 0, 0), (80, 80, 20)), ("square", (0, 0, 0), (80, 80, 40))],
       [[60, 60, 100, 100], [40, 40, 120, 120]]) := by
  unfold filter_shapes
  rw [c5_nms]
  rfl

theorem c5_stamp :
    stamp_masks square_raster 4
        [("square", (0, 0, 0), (80, 80, 20)), ("square", (0, 0, 0), (80, 80, 40))] =
      [draw_shape_mask square_raster zero_mask ("square", (0, 0, 0), (80, 80, 20)),
       draw_shape_mask square_raster zero_mask ("square", (0, 0, 0), (80, 80, 40)),
       zero_mask, zero_mask] :=
  rfl

theorem c5_masks :
    (load_sample square_raster ["BG", "square", "circle", "triangle"] (3 / 10) 4 160 160
        c5_tape).1 =
      resolve_occlusion
        [draw_shape_mask square_raster zero_mask ("square", (0, 0, 0), (80, 80, 20)),
         draw_shape_mask square_raster zero_mask ("square", (0, 0, 0), (80, 80, 40)),
         zero_mask, zero_mask] := by
  simp only [load_sample]
  rw [c5_shapes, c5_boxes, c5_filter]
  unfold draw_masks
  rw [show ((4 : ℤ)).toNat = 4 from rfl, c5_stamp]

theorem c5_box_data_len :
    (load_sample square_raster ["BG", "square", "circle", "triangle"] (3 / 10) 4 160 160
        c5_tape).2.length = 2 := by
  simp only [load_sample]
  rw [c5_shapes, c5_boxes, c5_filter]
  simp

/-- The small square's cover is inside the large square's cover. -/
theorem c5_cover_incl (p : ℕ × ℕ) :
    square_raster ("square", (0, 0, 0), (80, 80, 20)) p = true →
      square_raster ("square", (0, 0, 0), (80, 80, 40)) p = true := by
  unfold square_raster
  simp only [Bool.and_eq_true, decide_eq_true_eq]
  intro h
  obtain ⟨⟨⟨h1, h2⟩, h3⟩, h4⟩ := h
  refine ⟨⟨⟨by omega, by omega⟩, by omega⟩, by omega⟩

/-- C5 counterexample: both shapes survive NMS (IoU 1/4 ≤ 0.3) so `box_data`
has 2 rows, but the later size-40 square completely covers the earlier
size-20 square at the same center, so after occlusion resolution only 1 mask
channel is non-empty. -/
theorem claim_C5_counterexample :
    (load_sample square_raster ["BG", "square", "circle", "triangle"] (3 / 10) 4 160 160
        c5_tape).2.length = 2 ∧
    num_nonempty_channels 160 160
      (load_sample square_raster ["BG", "square", "circle", "triangle"] (3 / 10) 4 160 160
        c5_tape).1 = 1 ∧
    (2 : ℕ) ≠ 1 := by
  refine ⟨c5_box_data_len, ?_, by decide⟩
  rw [c5_masks]
  set m0 := draw_shape_mask square_raster zero_mask ("square", (0, 0, 0), (80, 80, 20))
    with hm0
  set m1 := draw_shape_mask square_raster zero_mask ("square", (0, 0, 0), (80, 80, 40))
    with hm1
  set init : List Mask := [m0, m1, zero_mask, zero_mask] with hinit
  have hlen : (resolve_occlusion init).length = 4 := by
    rw [resolve_occlusion_length]
    rfl
  obtain ⟨a, b, c, d, habcd⟩ := list_len4 _ hlen
  have hga : a = (resolve_occlusion init).getD 0 zero_mask := by rw [habcd]; rfl
  have hgb : b = (resolve_occlusion init).getD 1 zero_mask := by rw [habcd]; rfl
  have hgc : c = (resolve_occlusion init).getD 2 zero_mask := by rw [habcd]; rfl
  have hgd : d = (resolve_occlusion init).getD 3 zero_mask := by rw [habcd]; rfl
  have hpa : ∀ p, a p = false := by
    intro p
    rw [hga, resolve_occlusion_getD init 0 (by rw [hinit]; decide) p]
    rw [show init.getD 0 zero_mask = m0 from rfl]
    cases hm0p : m0 p with
    | false => rfl
    | true =>
      have hm1p : m1 p = true := by
        rw [hm1]
        rw [hm0] at hm0p
        unfold draw_shape_mask at hm0p ⊢
        simp only [zero_mask, Bool.false_or] at hm0p ⊢
        exact c5_cover_incl p hm0p
      rw [show later_cover init 0 p = (m1 p || (false || (false || false))) from rfl, hm1p]
      rfl
  have hpb1 : b (80, 80) = true := by
    rw [hgb, resolve_occlusion_getD init 1 (by rw [hinit]; decide) (80, 80)]
    rw [show init.getD 1 zero_mask = m1 from rfl]
    rw [show later_cover init 1 (80, 80) = (false || (false || false)) from rfl]
    rw [show m1 (80, 80) = true from by rw [hm1]; decide]
    rfl
  have hpc : ∀ p, c p = false := by
    intro p
    rw [hgc, resolve_occlusion_getD init 2 (by rw [hinit]; decide) p]
    rw [show init.getD 2 zero_mask = zero_mask from rfl]
    rfl
  have hpd : ∀ p, d p = false := by
    intro p
    rw [hgd, resolve_occlusion_getD init 3 (by rw [hinit]; decide) p]
    rw [show init.getD 3 zero_mask = zero_mask from rfl]
    rfl
  rw [habcd]
  unfold num_nonempty_channels
  rw [List.filter_cons, List.filter_cons, List.filter_cons, List.filter_cons]
  rw [mask_nonempty_false hpa, mask_nonempty_true 80 80 (by decide) (by decide) hpb1,
    mask_nonempty_false hpc, mask_nonempty_false hpd]
  rfl

end ShapesLoader
